import Mathlib

/-!
Verification development for `bfinder` (src/main.rs), a deterministic
parallel top-N largest-file scanner.  The Rust source is shallowly
embedded: `u64` sizes become `Nat` (no arithmetic is performed on them),
`PathBuf` becomes `String` with its lexicographic total order, the
`BinaryHeap<Reverse<FileEntry>>` is modelled by its multiset of elements
kept as an ascending sorted list (the heap's internal arrangement is
unobservable; `push` followed by a conditional `pop` of the minimum
becomes `orderedInsert` followed by a conditional `tail`), and the
filesystem is an inductive tree.
-/

namespace Bfinder

/-- Mirrors Rust `struct FileEntry { size: u64, path: PathBuf }`
(src/main.rs:30-33). -/
@[ext]
structure FileEntry where
  size : Nat
  path : String
deriving DecidableEq

/-- Rust `u64::cmp` (ascending total order on sizes). -/
def natCompare (a b : Nat) : Ordering :=
  if a < b then .lt else if a = b then .eq else .gt

/-- Rust `PathBuf::cmp` (ascending lexicographic order on paths).
Compared through the character list `String.data`, the lexicographic
order on which coincides with Rust's byte-wise path order. -/
def strCompare (a b : String) : Ordering :=
  if a.data < b.data then .lt else if a = b then .eq else .gt

/-- `impl Ord for FileEntry` (src/main.rs:35-43):
`self.size.cmp(&other.size).then_with(|| self.path.cmp(&other.path))`. -/
def FileEntry.cmp (a b : FileEntry) : Ordering :=
  (natCompare a.size b.size).then (strCompare a.path b.path)

/-- The (non-strict) total order induced by `FileEntry::cmp`:
`a ≤ b` iff `cmp` does not answer `Greater`.  This is the order under
which `BinaryHeap<Reverse<FileEntry>>::pop` removes the least element. -/
def FileEntry.le (a b : FileEntry) : Prop := FileEntry.cmp a b ≠ .gt

instance : DecidableRel FileEntry.le := fun a b => by
  unfold FileEntry.le; infer_instance

/-- Per-thread bounded selector, mirroring Rust `struct TopNHeap`
(src/main.rs:52-55).  The `BinaryHeap` field is modelled by the sorted
(ascending under `FileEntry.le`) list of its elements. -/
structure TopNHeap where
  heap : List FileEntry
  capacity : Nat
deriving DecidableEq

/-- `TopNHeap::new` (src/main.rs:58-63). -/
def TopNHeap.new (capacity : Nat) : TopNHeap := ⟨[], capacity⟩

/-- `TopNHeap::insert` (src/main.rs:65-70): push the entry, then if the
heap holds more than `capacity` elements pop the least one. -/
def TopNHeap.insert (h : TopNHeap) (e : FileEntry) : TopNHeap :=
  let pushed := List.orderedInsert FileEntry.le e h.heap
  if h.capacity < pushed.length then ⟨pushed.tail, h.capacity⟩
  else ⟨pushed, h.capacity⟩

/-- `TopNHeap::into_vec` (src/main.rs:72-74): drain the heap's elements
(in unspecified order; callers re-sort or re-insert). -/
def TopNHeap.into_vec (h : TopNHeap) : List FileEntry := h.heap

/-- Folding a sequence of inserts into a fresh bounded selector. -/
def heapFold (c : Nat) (l : List FileEntry) : TopNHeap :=
  l.foldl TopNHeap.insert (TopNHeap.new c)

/-- Comparator used for the final output sort in `merge_heaps`
(src/main.rs:270-274): `b.size.cmp(&a.size).then_with(|| a.path.cmp(&b.path))`,
i.e. size descending with path ascending as tie-break. -/
def outCmp (a b : FileEntry) : Ordering :=
  (natCompare b.size a.size).then (strCompare a.path b.path)

/-- Non-strict order of the output comparator (`sort_by` sorts ascending
with respect to its comparator). -/
def outLe (a b : FileEntry) : Prop := outCmp a b ≠ .gt

instance : DecidableRel outLe := fun a b => by
  unfold outLe; infer_instance

/-- `merge_heaps` (src/main.rs:259-276): re-insert every entry of every
drained per-thread heap into one fresh bounded selector of the same
capacity, then sort the survivors by the output comparator. -/
def merge_heaps (heaps : List TopNHeap) (capacity : Nat) : List FileEntry :=
  let final_heap :=
    heaps.foldl (fun fh h => h.into_vec.foldl TopNHeap.insert fh)
      (TopNHeap.new capacity)
  List.insertionSort outLe final_heap.into_vec

/-- The ranking order claimed by the spec ("size descending, path
ascending on ties"): `a` ranks strictly higher than `b`.  Stated from
the spec's words, for comparison with the implementation's order. -/
def specRankHigher (a b : FileEntry) : Prop :=
  b.size < a.size ∨ (a.size = b.size ∧ a.path.data < b.path.data)

instance : DecidableRel specRankHigher := fun a b => by
  unfold specRankHigher; infer_instance

/-- Model of the scanned filesystem.  A directory child is a triple
`(name, ok, node)`: `ok` is `false` when reading that child during the
`read_dir` listing loop fails or its name is not valid UTF-8
(src/main.rs:102-118, both cases count one error and skip the child).
`dir readable cs` is a directory; `readable = false` means `read_dir`
on it fails (src/main.rs:102, the `?`).  `statErr` is an entry whose
single `statat` metadata query fails (src/main.rs:132-138).  `symlink t`
is a symbolic link whose target is `t`; the `SYMLINK_NOFOLLOW` query
reports the link itself, so classification never inspects `t`.
`other` covers devices, sockets, etc. -/
inductive FSNode where
  | file (size : Nat)
  | dir (readable : Bool) (children : List (String × Bool × FSNode))
  | symlink (target : FSNode)
  | other
  | statErr

/-- `struct ScanStats` (src/main.rs:78-83). -/
@[ext]
structure ScanStats where
  files_scanned : Nat
  dirs_scanned : Nat
  errors : Nat
deriving DecidableEq

/-- Field-wise aggregation of stats, as done in src/main.rs:240-243. -/
def ScanStats.add (a b : ScanStats) : ScanStats :=
  ⟨a.files_scanned + b.files_scanned, a.dirs_scanned + b.dirs_scanned,
    a.errors + b.errors⟩

/-- Sum of a list of per-directory stats deltas. -/
def sumStats : List ScanStats → ScanStats
  | [] => ⟨0, 0, 0⟩
  | s :: rest => ScanStats.add s (sumStats rest)

/-- `struct DirEntry` (src/main.rs:86-89): one listed child with its
name and full path.  The model additionally carries the child's
filesystem node so classification can consult the tree. -/
structure DirEntry where
  name : String
  path : String
  node : FSNode

/-- Name order used by `entries.sort_by(|a, b| a.name.cmp(&b.name))`
(src/main.rs:127). -/
def DirEntry.nameLe (a b : DirEntry) : Prop := a.name.data ≤ b.name.data

instance : DecidableRel DirEntry.nameLe := fun a b => by
  unfold DirEntry.nameLe; infer_instance

/-- `enum EntryMetadata` (src/main.rs:162-166). -/
inductive EntryMetadata where
  | RegularFile (size : Nat)
  | Directory
  | Other
deriving DecidableEq

/-- `classify_entry` (src/main.rs:169-198): one `statat` call with
`AtFlags::SYMLINK_NOFOLLOW`.  The model receives the child's own node —
the link-unaware view — so a symlink is classified by its own file type
(`Other`), never by its target.  A failing `openat`/`statat` is the
`statErr` node. -/
def classify_entry : FSNode → Except Unit EntryMetadata
  | .file s => .ok (.RegularFile s)
  | .dir _ _ => .ok .Directory
  | .symlink _ => .ok .Other
  | .other => .ok .Other
  | .statErr => .error ()

/-- The listing loop of `scan_directory` (src/main.rs:100-124): collect
readable, UTF-8-named children into `DirEntry` records (path =
`dir_path`/`name`, as `entry.path()` joins them), counting one error for
each skipped child.  Returns the entries and the error count. -/
def read_entries (dir_path : String) :
    List (String × Bool × FSNode) → List DirEntry × Nat
  | [] => ([], 0)
  | c :: cs =>
    let r := read_entries dir_path cs
    if c.2.1 then (⟨c.1, dir_path ++ "/" ++ c.1, c.2.2⟩ :: r.1, r.2)
    else (r.1, r.2 + 1)

/-- The classification loop of `scan_directory` (src/main.rs:130-156):
classify each listed entry once; on error count it and continue; feed
regular files into the selector, record subdirectories, ignore `Other`. -/
def classify_loop :
    List DirEntry → TopNHeap → ScanStats → List (String × FSNode) →
      TopNHeap × ScanStats × List (String × FSNode)
  | [], top_n, stats, subdirs => (top_n, stats, subdirs)
  | e :: rest, top_n, stats, subdirs =>
    match classify_entry e.node with
    | .error _ =>
      classify_loop rest top_n
        { stats with errors := stats.errors + 1 } subdirs
    | .ok (.RegularFile size) =>
      classify_loop rest (top_n.insert ⟨size, e.path⟩)
        { stats with files_scanned := stats.files_scanned + 1 } subdirs
    | .ok .Directory =>
      classify_loop rest top_n
        { stats with dirs_scanned := stats.dirs_scanned + 1 }
        (subdirs ++ [(e.path, e.node)])
    | .ok .Other => classify_loop rest top_n stats subdirs

/-- Body of `scan_directory` after a successful `read_dir`
(src/main.rs:100-158): list, sort by name, classify. -/
def scan_dir_ok (dir_path : String) (children : List (String × Bool × FSNode))
    (top_n : TopNHeap) (stats : ScanStats) (subdirs : List (String × FSNode)) :
    TopNHeap × ScanStats × List (String × FSNode) :=
  let r := read_entries dir_path children
  let sorted := List.insertionSort DirEntry.nameLe r.1
  classify_loop sorted top_n { stats with errors := stats.errors + r.2 } subdirs

/-- `scan_directory` (src/main.rs:93-159).  `fs::read_dir(dir_path)?`
fails — yielding `Err` with nothing mutated — exactly when the node is
not a readable directory. -/
def scan_directory (dir_path : String) (node : FSNode) (top_n : TopNHeap)
    (stats : ScanStats) (subdirs : List (String × FSNode)) :
    Except Unit (TopNHeap × ScanStats × List (String × FSNode)) :=
  match node with
  | .dir true children => .ok (scan_dir_ok dir_path children top_n stats subdirs)
  | _ => .error ()

/-- One invocation of the `map_init` closure of `parallel_scan`
(src/main.rs:215-233) on one directory of the current level: the closure
starts from a fresh selector and zeroed stats (`std::mem::replace` /
`std::mem::take` return the accumulated pair and reset the worker state,
so each directory's scan effectively begins fresh), scans the directory,
and on `Err` counts one error (src/main.rs:221-223). -/
def scan_one (capacity : Nat) (item : String × FSNode) :
    TopNHeap × ScanStats × List (String × FSNode) :=
  match scan_directory item.1 item.2 (TopNHeap.new capacity) ⟨0, 0, 0⟩ [] with
  | .ok r => r
  | .error _ => (TopNHeap.new capacity, ⟨0, 0, 1⟩, [])

/-- Structural weight of a node, used as termination fuel for the
level-synchronized loop. -/
def FSNode.weight : FSNode → Nat
  | .dir _ cs => 1 + weightChildren cs
  | _ => 1
where
  weightChildren : List (String × Bool × FSNode) → Nat
  | [] => 0
  | c :: cs => FSNode.weight c.2.2 + weightChildren cs

/-- Total weight of a work queue. -/
def queueWeight (q : List (String × FSNode)) : Nat :=
  (q.map (fun it => it.2.weight)).sum

/-- The `while !work_queue.is_empty()` loop of `parallel_scan`
(src/main.rs:208-248), with an explicit fuel argument (any fuel at least
`queueWeight` of the queue gives the loop's value; `bfs_run` below
supplies it).  Each round maps `scan_one` over the current level,
collects every returned selector and stats delta, and joins the
discovered subdirectories into the next level's queue. -/
def bfs_rounds (capacity : Nat) : Nat → List (String × FSNode) →
    List TopNHeap × ScanStats
  | _, [] => ([], ⟨0, 0, 0⟩)
  | 0, _ :: _ => ([], ⟨0, 0, 0⟩)
  | fuel + 1, q₀ :: q' =>
    let q := q₀ :: q'
    let results := q.map (scan_one capacity)
    let next := (results.map (fun r => r.2.2)).flatten
    let rest := bfs_rounds capacity fuel next
    (results.map (fun r => r.1) ++ rest.1,
      ScanStats.add (sumStats (results.map (fun r => r.2.1))) rest.2)

/-- The level loop run to completion on a queue. -/
def bfs_run (capacity : Nat) (q : List (String × FSNode)) :
    List TopNHeap × ScanStats :=
  bfs_rounds capacity (queueWeight q) q

/-- The accumulated `thread_heaps` and `global_stats` of `parallel_scan`
(src/main.rs:201-248) just before the final merge. -/
def scan_run (root_path : String) (root : FSNode) (capacity : Nat) :
    List TopNHeap × ScanStats :=
  bfs_run capacity [(root_path, root)]

/-- `parallel_scan` (src/main.rs:201-256): run the level loop from the
root, then merge every collected selector. -/
def parallel_scan (root_path : String) (root : FSNode) (capacity : Nat) :
    List FileEntry × ScanStats :=
  let r := scan_run root_path root capacity
  (merge_heaps r.1 capacity, r.2)

/-- Exit status of `main` (src/main.rs:295-327): `main` calls
`parallel_scan`, prints the results and the stats, and returns normally;
no branch inspects errors or aborts, so the process exit status is
always 0. -/
def main_exit_code (root_path : String) (root : FSNode) (capacity : Nat) : Nat :=
  let _ := parallel_scan root_path root capacity
  0

/-- Reference aggregate of everything the scan discovers below one
point of the tree: number of regular files classified, number of
subdirectories classified, number of errors counted, and the list of
regular-file entries (with their full paths). -/
structure Agg where
  files : Nat
  dirs : Nat
  errs : Nat
  entries : List FileEntry
deriving DecidableEq

/-- Component-wise aggregate sum. -/
def Agg.add (a b : Agg) : Agg :=
  ⟨a.files + b.files, a.dirs + b.dirs, a.errs + b.errs, a.entries ++ b.entries⟩

mutual

/-- Aggregate contributed by one listed, successfully classified child
at the given full path: a regular file yields one file entry; a
discovered directory yields one `dirs` tick plus its own subtree
aggregate (an unreadable one additionally costs one error when it is
scanned on the next level); a symlink or other node contributes
nothing; a failing metadata query costs one error. -/
def childAgg : String → FSNode → Agg
  | path, .file s => ⟨1, 0, 0, [⟨s, path⟩]⟩
  | path, .dir true cs => Agg.add ⟨0, 1, 0, []⟩ (childrenAgg path cs)
  | _, .dir false _ => ⟨0, 1, 1, []⟩
  | _, .symlink _ => ⟨0, 0, 0, []⟩
  | _, .other => ⟨0, 0, 0, []⟩
  | _, .statErr => ⟨0, 0, 1, []⟩

/-- Aggregate of a readable directory's listed children: each child
whose listing fails costs one error; each listed child contributes
`childAgg` at its full path. -/
def childrenAgg : String → List (String × Bool × FSNode) → Agg
  | _, [] => ⟨0, 0, 0, []⟩
  | p, c :: cs =>
    Agg.add (if c.2.1 then childAgg (p ++ "/" ++ c.1) c.2.2 else ⟨0, 0, 1, []⟩)
      (childrenAgg p cs)

end

/-- Aggregate of scanning a whole tree whose root is at the given path:
the root is listed (not classified), so a root that cannot be read as a
directory contributes exactly one error and nothing else. -/
def nodeAgg (p : String) (n : FSNode) : Agg :=
  match n with
  | .dir true cs => childrenAgg p cs
  | _ => ⟨0, 0, 1, []⟩

/-- The `DirEntry` record built for one successfully listed child. -/
def mkEntry (p : String) (c : String × Bool × FSNode) : DirEntry :=
  ⟨c.1, p ++ "/" ++ c.1, c.2.2⟩

/-- The listed entries of a children list (those whose listing and name
decoding succeed), in listing order. -/
def okEntries (p : String) (cs : List (String × Bool × FSNode)) : List DirEntry :=
  (cs.filter (fun c => c.2.1)).map (mkEntry p)

/-- The listed entries, sorted by name as `scan_directory` sorts them. -/
def sortedEntries (p : String) (cs : List (String × Bool × FSNode)) : List DirEntry :=
  List.insertionSort DirEntry.nameLe (okEntries p cs)

/-- Stats delta contributed by classifying one listed entry. -/
def entryStats (e : DirEntry) : ScanStats :=
  match classify_entry e.node with
  | .error _ => ⟨0, 0, 1⟩
  | .ok (.RegularFile _) => ⟨1, 0, 0⟩
  | .ok .Directory => ⟨0, 1, 0⟩
  | .ok .Other => ⟨0, 0, 0⟩

/-- The regular-file entries among a list of listed entries, in order. -/
def regularsOf (l : List DirEntry) : List FileEntry :=
  l.filterMap (fun e =>
    match classify_entry e.node with
    | .ok (.RegularFile s) => some ⟨s, e.path⟩
    | _ => none)

/-- The subdirectories among a list of listed entries, in order. -/
def dirsOf (l : List DirEntry) : List (String × FSNode) :=
  l.filterMap (fun e =>
    match classify_entry e.node with
    | .ok .Directory => some (e.path, e.node)
    | _ => none)

/-- Whether classifying this node fails (the single metadata query
errors). -/
def classifyFails : FSNode → Bool
  | .statErr => true
  | _ => false

/-- Children whose listing and classification both succeed. -/
def goodChildren (cs : List (String × Bool × FSNode)) :
    List (String × Bool × FSNode) :=
  cs.filter (fun c => c.2.1 && !classifyFails c.2.2)

/-- Number of children that fail at the entry level: listing/UTF-8
failures plus metadata-query failures. -/
def badChildCount (cs : List (String × Bool × FSNode)) : Nat :=
  cs.countP (fun c => !c.2.1 || classifyFails c.2.2)

/-- The stats components of an aggregate. -/
def statsOfAgg (a : Agg) : ScanStats := ⟨a.files, a.dirs, a.errs⟩

/-- Stats contributed by one work-queue item and its whole subtree. -/
def itemStats (it : String × FSNode) : ScanStats := statsOfAgg (nodeAgg it.1 it.2)

end Bfinder

namespace Bfinder

theorem strDataInj {a b : String} (h : a.data = b.data) : a = b := by
  cases a
  cases b
  exact congrArg String.mk h

theorem FileEntry.le_iff (a b : FileEntry) :
    FileEntry.le a b
      ↔ a.size < b.size ∨ (a.size = b.size ∧ a.path.data ≤ b.path.data) := by
  unfold FileEntry.le FileEntry.cmp natCompare strCompare
  rcases lt_trichotomy a.size b.size with h | h | h
  · simp [h, Ordering.then]
  · rcases lt_trichotomy a.path.data b.path.data with hp | hp | hp
    · simp [h, hp, Ordering.then, le_of_lt hp]
    · have hp' : a.path = b.path := strDataInj hp
      simp [h, hp, hp', Ordering.then]
    · have h1 : ¬ a.path.data < b.path.data := lt_asymm hp
      have h2 : a.path ≠ b.path := by
        intro hcon
        exact absurd (hcon ▸ hp) (lt_irrefl _)
      simp [h, h1, h2, Ordering.then, not_le.mpr hp]
  · have h1 : ¬ a.size < b.size := lt_asymm h
    have h2 : a.size ≠ b.size := ne_of_gt h
    simp [h1, h2, Ordering.then, not_lt.mpr (le_of_lt h)]

instance : IsTotal FileEntry FileEntry.le := by
  constructor
  intro a b
  rw [FileEntry.le_iff, FileEntry.le_iff]
  rcases lt_trichotomy a.size b.size with h | h | h
  · exact Or.inl (Or.inl h)
  · rcases le_total a.path.data b.path.data with hp | hp
    · exact Or.inl (Or.inr ⟨h, hp⟩)
    · exact Or.inr (Or.inr ⟨h.symm, hp⟩)
  · exact Or.inr (Or.inl h)

instance : IsTrans FileEntry FileEntry.le := by
  constructor
  intro a b c hab hbc
  rw [FileEntry.le_iff] at *
  rcases hab with h1 | ⟨h1, hp1⟩ <;> rcases hbc with h2 | ⟨h2, hp2⟩
  · exact Or.inl (lt_trans h1 h2)
  · exact Or.inl (h2 ▸ h1)
  · exact Or.inl (h1 ▸ h2)
  · exact Or.inr ⟨h1.trans h2, le_trans hp1 hp2⟩

instance : IsAntisymm FileEntry FileEntry.le := by
  constructor
  intro a b hab hba
  rw [FileEntry.le_iff] at hab hba
  obtain ⟨as, ap⟩ := a
  obtain ⟨bs, bp⟩ := b
  simp only at hab hba
  have hs : as = bs := by
    rcases hab with h | ⟨h, _⟩ <;> rcases hba with h' | ⟨h', _⟩ <;> omega
  subst hs
  have hp : ap = bp := by
    rcases hab with h | ⟨_, h⟩
    · omega
    · rcases hba with h' | ⟨_, h'⟩
      · omega
      · exact strDataInj (le_antisymm h h')
  rw [hp]

/-- Inserting into the tail of a sorted list and taking the tail agrees
with inserting into the whole list and dropping one more element. -/
theorem tail_orderedInsert_drop (a : FileEntry) :
    ∀ (k : Nat) (S : List FileEntry), S.Sorted FileEntry.le →
      (List.orderedInsert FileEntry.le a (S.drop k)).tail
        = (List.orderedInsert FileEntry.le a S).drop (k + 1) := by
  intro k
  induction k with
  | zero =>
    intro S _
    simp [List.drop_one]
  | succ k ih =>
    intro S hS
    match S with
    | [] => simp [List.orderedInsert]
    | b :: T =>
      have hT : T.Sorted FileEntry.le := hS.of_cons
      by_cases hab : FileEntry.le a b
      · simp only [List.orderedInsert, if_pos hab, List.drop_succ_cons]
        cases hTk : T.drop k with
        | nil => simp [List.orderedInsert, hTk]
        | cons x xs =>
          have hx : x ∈ T := List.drop_subset k T (hTk ▸ List.mem_cons_self x xs)
          have hbx : FileEntry.le b x := List.rel_of_sorted_cons hS x hx
          have hax : FileEntry.le a x := Trans.trans hab hbx
          simp [List.orderedInsert, if_pos hax, hTk]
      · simp only [List.orderedInsert, if_neg hab, List.drop_succ_cons]
        exact ih T hT

/-- One `TopNHeap.insert` step on the canonical state `drop (n - c) (sorted)`. -/
theorem insert_sortedDrop (c : Nat) (a : FileEntry) (S : List FileEntry)
    (hS : S.Sorted FileEntry.le) :
    TopNHeap.insert ⟨S.drop (S.length - c), c⟩ a
      = ⟨(List.orderedInsert FileEntry.le a S).drop (S.length + 1 - c), c⟩ := by
  unfold TopNHeap.insert
  simp only [List.orderedInsert_length, List.length_drop]
  rcases le_or_lt c S.length with hc | hc
  · rw [if_pos (by omega)]
    have := tail_orderedInsert_drop a (S.length - c) S hS
    rw [this]
    have harith : S.length - c + 1 = S.length + 1 - c := by omega
    rw [harith]
  · have h0 : S.length - c = 0 := by omega
    rw [if_neg (by omega)]
    have h1 : S.length + 1 - c = 0 := by omega
    simp [h0, h1]

/-- Canonical characterization of a fresh bounded selector after a
sequence of inserts: it holds exactly the last `min c n` elements of the
ascending sort of the inserted sequence. -/
theorem heapFold_eq (c : Nat) (l : List FileEntry) :
    heapFold c l
      = ⟨(List.insertionSort FileEntry.le l).drop (l.length - c), c⟩ := by
  induction l using List.reverseRecOn with
  | nil => simp [heapFold, TopNHeap.new]
  | append_singleton l a ih =>
    have hfold : heapFold c (l ++ [a]) = TopNHeap.insert (heapFold c l) a := by
      simp [heapFold, List.foldl_append]
    rw [hfold, ih]
    have hsorted : (List.insertionSort FileEntry.le l).Sorted FileEntry.le :=
      List.sorted_insertionSort FileEntry.le l
    have hlen : (List.insertionSort FileEntry.le l).length = l.length :=
      List.length_insertionSort FileEntry.le l
    have hstep := insert_sortedDrop c a (List.insertionSort FileEntry.le l) hsorted
    rw [hlen] at hstep
    rw [hstep]
    have hsort_eq : List.orderedInsert FileEntry.le a (List.insertionSort FileEntry.le l)
        = List.insertionSort FileEntry.le (l ++ [a]) := by
      have hperm : List.Perm
          (List.orderedInsert FileEntry.le a (List.insertionSort FileEntry.le l))
          (List.insertionSort FileEntry.le (l ++ [a])) :=
        (List.perm_orderedInsert _ a _).trans
          (((List.perm_insertionSort _ l).cons a).trans
            ((List.perm_append_singleton a l).symm.trans
              (List.perm_insertionSort _ _).symm))
      exact List.eq_of_perm_of_sorted hperm (hsorted.orderedInsert a _)
        (List.sorted_insertionSort _ _)
    rw [hsort_eq]
    simp

/-- The bounded selector's final state depends only on the multiset of
inserted entries, not on their order. -/
theorem heapFold_perm {l1 l2 : List FileEntry} (c : Nat) (h : l1.Perm l2) :
    heapFold c l1 = heapFold c l2 := by
  rw [heapFold_eq, heapFold_eq]
  have hs : List.insertionSort FileEntry.le l1 = List.insertionSort FileEntry.le l2 :=
    List.eq_of_perm_of_sorted
      ((List.perm_insertionSort _ _).trans (h.trans (List.perm_insertionSort _ _).symm))
      (List.sorted_insertionSort _ _) (List.sorted_insertionSort _ _)
  rw [hs, h.length_eq]

/-- Folding inserts over a concatenation of lists, heap by heap, is
folding over the flattened list. -/
theorem foldl_insert_flatten (hs : List TopNHeap) (c : Nat) :
    hs.foldl (fun fh h => h.into_vec.foldl TopNHeap.insert fh) (TopNHeap.new c)
      = heapFold c (hs.map TopNHeap.into_vec).flatten := by
  unfold heapFold
  generalize TopNHeap.new c = init
  induction hs generalizing init with
  | nil => simp
  | cons h t ih =>
    simp only [List.map_cons, List.flatten_cons, List.foldl_cons, List.foldl_append]
    exact ih _

end Bfinder

namespace Bfinder

theorem statsAdd_assoc (a b c : ScanStats) :
    ScanStats.add (ScanStats.add a b) c = ScanStats.add a (ScanStats.add b c) := by
  simp [ScanStats.add]
  omega

theorem statsAdd_zero (a : ScanStats) : ScanStats.add a ⟨0, 0, 0⟩ = a := by
  simp [ScanStats.add]

theorem zero_statsAdd (a : ScanStats) : ScanStats.add ⟨0, 0, 0⟩ a = a := by
  simp [ScanStats.add]

theorem statsAdd_comm (a b : ScanStats) :
    ScanStats.add a b = ScanStats.add b a := by
  simp [ScanStats.add]
  omega

theorem sumStats_append (l1 l2 : List ScanStats) :
    sumStats (l1 ++ l2) = ScanStats.add (sumStats l1) (sumStats l2) := by
  induction l1 with
  | nil => simp [sumStats, zero_statsAdd]
  | cons s t ih => simp [sumStats, ih, statsAdd_assoc]

theorem sumStats_components (l : List ScanStats) :
    sumStats l = ⟨(l.map ScanStats.files_scanned).sum,
      (l.map ScanStats.dirs_scanned).sum, (l.map ScanStats.errors).sum⟩ := by
  induction l with
  | nil => simp [sumStats]
  | cons s t ih => simp [sumStats, ih, ScanStats.add]

/-- `sumStats` is invariant under permutation of the summands. -/
theorem sumStats_perm {l1 l2 : List ScanStats} (h : l1.Perm l2) :
    sumStats l1 = sumStats l2 := by
  rw [sumStats_components, sumStats_components,
    (h.map ScanStats.files_scanned).sum_eq, (h.map ScanStats.dirs_scanned).sum_eq,
    (h.map ScanStats.errors).sum_eq]

theorem sumStats_flatten (L : List (List ScanStats)) :
    sumStats L.flatten = sumStats (L.map sumStats) := by
  induction L with
  | nil => simp [sumStats]
  | cons l t ih => simp [sumStats, sumStats_append, ih]

/-- Full characterization of the classification loop: the selector is
folded over the regular files in order, the stats grow by the sum of the
per-entry deltas, and the discovered subdirectories are appended in
order. -/
theorem classify_loop_spec :
    ∀ (l : List DirEntry) (h : TopNHeap) (s : ScanStats)
      (sub : List (String × FSNode)),
      classify_loop l h s sub
        = (List.foldl TopNHeap.insert h (regularsOf l),
           ScanStats.add s (sumStats (l.map entryStats)),
           sub ++ dirsOf l) := by
  intro l
  induction l with
  | nil =>
    intro h s sub
    simp [classify_loop, regularsOf, dirsOf, sumStats, statsAdd_zero]
  | cons e rest ih =>
    intro h s sub
    cases hc : classify_entry e.node with
    | error u =>
      simp only [classify_loop, hc, ih, regularsOf, dirsOf, entryStats,
        List.filterMap_cons, List.map_cons, sumStats, Prod.mk.injEq]
      refine ⟨by simp, ?_, by simp [List.append_assoc]⟩
      simp only [ScanStats.add, ScanStats.mk.injEq]
      omega
    | ok m =>
      cases m with
      | RegularFile size =>
        simp only [classify_loop, hc, ih, regularsOf, dirsOf, entryStats,
          List.filterMap_cons, List.map_cons, sumStats, Prod.mk.injEq]
        refine ⟨by simp, ?_, by simp [List.append_assoc]⟩
        simp only [ScanStats.add, ScanStats.mk.injEq]
        omega
      | Directory =>
        simp only [classify_loop, hc, ih, regularsOf, dirsOf, entryStats,
          List.filterMap_cons, List.map_cons, sumStats, Prod.mk.injEq]
        refine ⟨by simp, ?_, by simp [List.append_assoc]⟩
        simp only [ScanStats.add, ScanStats.mk.injEq]
        omega
      | Other =>
        simp only [classify_loop, hc, ih, regularsOf, dirsOf, entryStats,
          List.filterMap_cons, List.map_cons, sumStats, Prod.mk.injEq]
        refine ⟨by simp, ?_, by simp [List.append_assoc]⟩
        simp only [ScanStats.add, ScanStats.mk.injEq]
        omega

/-- The listing loop produces exactly the ok-children's entries in
order, plus one error per skipped child. -/
theorem read_entries_spec (p : String) :
    ∀ cs : List (String × Bool × FSNode),
      read_entries p cs = (okEntries p cs, cs.countP (fun c => !c.2.1)) := by
  intro cs
  induction cs with
  | nil => simp [read_entries, okEntries]
  | cons c t ih =>
    by_cases hc : c.2.1
    · simp [read_entries, ih, okEntries, mkEntry, hc, List.countP_cons]
    · simp [read_entries, ih, okEntries, mkEntry, hc, List.countP_cons]

/-- Full characterization of a successful directory scan. -/
theorem scan_dir_ok_spec (p : String) (cs : List (String × Bool × FSNode))
    (h : TopNHeap) (s : ScanStats) (sub : List (String × FSNode)) :
    scan_dir_ok p cs h s sub
      = (List.foldl TopNHeap.insert h (regularsOf (sortedEntries p cs)),
         ScanStats.add s
           (ScanStats.add ⟨0, 0, cs.countP (fun c => !c.2.1)⟩
             (sumStats ((sortedEntries p cs).map entryStats))),
         sub ++ dirsOf (sortedEntries p cs)) := by
  unfold scan_dir_ok
  rw [read_entries_spec]
  simp only
  rw [classify_loop_spec]
  simp only [Prod.mk.injEq]
  refine ⟨by simp [sortedEntries], ?_, by simp [sortedEntries]⟩
  simp only [ScanStats.add, ScanStats.mk.injEq, sortedEntries]
  omega

end Bfinder


namespace Bfinder

theorem statsOfAgg_add (a b : Agg) :
    statsOfAgg (Agg.add a b) = ScanStats.add (statsOfAgg a) (statsOfAgg b) := rfl

theorem statsOfAgg_mk (f d er : Nat) (en : List FileEntry) :
    statsOfAgg ⟨f, d, er, en⟩ = ⟨f, d, er⟩ := rfl

theorem itemStats_pair (p : String) (n : FSNode) :
    itemStats (p, n) = statsOfAgg (nodeAgg p n) := rfl

theorem dirsOf_nil : dirsOf [] = [] := rfl

theorem dirsOf_cons (e : DirEntry) (l : List DirEntry) :
    dirsOf (e :: l)
      = (match classify_entry e.node with
          | Except.ok .Directory => [(e.path, e.node)]
          | _ => []) ++ dirsOf l := by
  cases hn : e.node <;> simp [dirsOf, classify_entry, hn]

theorem regularsOf_nil : regularsOf [] = [] := rfl

theorem regularsOf_cons (e : DirEntry) (l : List DirEntry) :
    regularsOf (e :: l)
      = (match classify_entry e.node with
          | Except.ok (.RegularFile s) => [(⟨s, e.path⟩ : FileEntry)]
          | _ => []) ++ regularsOf l := by
  cases hn : e.node <;> simp [regularsOf, classify_entry, hn]

theorem sortedEntries_perm (p : String) (cs : List (String × Bool × FSNode)) :
    (sortedEntries p cs).Perm (okEntries p cs) :=
  List.perm_insertionSort _ _

theorem sumStats_nil : sumStats [] = ⟨0, 0, 0⟩ := rfl

theorem sumStats_cons (s : ScanStats) (rest : List ScanStats) :
    sumStats (s :: rest) = ScanStats.add s (sumStats rest) := rfl

/-- Classifying a list of entries and then recursing into the
discovered subdirectories accounts exactly for each entry's whole
subtree. -/
theorem entries_stats_decomp :
    ∀ l : List DirEntry,
      ScanStats.add (sumStats (l.map entryStats))
        (sumStats ((dirsOf l).map itemStats))
      = sumStats (l.map (fun e => statsOfAgg (childAgg e.path e.node))) := by
  intro l
  induction l with
  | nil => simp [sumStats_nil, dirsOf_nil, ScanStats.add]
  | cons e rest ih =>
    obtain ⟨nm, pth, nd⟩ := e
    cases nd with
    | file s =>
      show ScanStats.add
          (ScanStats.add ⟨1, 0, 0⟩ (sumStats (rest.map entryStats)))
          (sumStats ((dirsOf rest).map itemStats))
        = ScanStats.add ⟨1, 0, 0⟩
            (sumStats (rest.map (fun e => statsOfAgg (childAgg e.path e.node))))
      rw [← ih]
      simp only [ScanStats.add, ScanStats.mk.injEq]
      omega
    | dir readable cs =>
      cases readable with
      | true =>
        show ScanStats.add
            (ScanStats.add ⟨0, 1, 0⟩ (sumStats (rest.map entryStats)))
            (ScanStats.add (statsOfAgg (childrenAgg pth cs))
              (sumStats ((dirsOf rest).map itemStats)))
          = ScanStats.add
              (ScanStats.add ⟨0, 1, 0⟩ (statsOfAgg (childrenAgg pth cs)))
              (sumStats (rest.map (fun e => statsOfAgg (childAgg e.path e.node))))
        rw [← ih]
        simp only [ScanStats.add, ScanStats.mk.injEq]
        omega
      | false =>
        show ScanStats.add
            (ScanStats.add ⟨0, 1, 0⟩ (sumStats (rest.map entryStats)))
            (ScanStats.add ⟨0, 0, 1⟩
              (sumStats ((dirsOf rest).map itemStats)))
          = ScanStats.add (ScanStats.add ⟨0, 1, 1⟩ ⟨0, 0, 0⟩)
              (sumStats (rest.map (fun e => statsOfAgg (childAgg e.path e.node))))
        rw [← ih]
        simp only [ScanStats.add, ScanStats.mk.injEq]
        omega
    | symlink t =>
      show ScanStats.add
          (ScanStats.add ⟨0, 0, 0⟩ (sumStats (rest.map entryStats)))
          (sumStats ((dirsOf rest).map itemStats))
        = ScanStats.add ⟨0, 0, 0⟩
            (sumStats (rest.map (fun e => statsOfAgg (childAgg e.path e.node))))
      rw [← ih]
      simp only [ScanStats.add, ScanStats.mk.injEq]
      omega
    | other =>
      show ScanStats.add
          (ScanStats.add ⟨0, 0, 0⟩ (sumStats (rest.map entryStats)))
          (sumStats ((dirsOf rest).map itemStats))
        = ScanStats.add ⟨0, 0, 0⟩
            (sumStats (rest.map (fun e => statsOfAgg (childAgg e.path e.node))))
      rw [← ih]
      simp only [ScanStats.add, ScanStats.mk.injEq]
      omega
    | statErr =>
      show ScanStats.add
          (ScanStats.add ⟨0, 0, 1⟩ (sumStats (rest.map entryStats)))
          (sumStats ((dirsOf rest).map itemStats))
        = ScanStats.add ⟨0, 0, 1⟩
            (sumStats (rest.map (fun e => statsOfAgg (childAgg e.path e.node))))
      rw [← ih]
      simp only [ScanStats.add, ScanStats.mk.injEq]
      omega

/-- The stats of a readable directory's aggregate, split into listing
failures plus per-listed-child subtree contributions. -/
theorem childrenAgg_stats (p : String) :
    ∀ cs : List (String × Bool × FSNode),
      statsOfAgg (childrenAgg p cs)
        = ScanStats.add ⟨0, 0, cs.countP (fun c => !c.2.1)⟩
            (sumStats ((okEntries p cs).map
              (fun e => statsOfAgg (childAgg e.path e.node)))) := by
  intro cs
  induction cs with
  | nil => simp [childrenAgg, okEntries, sumStats_nil, statsOfAgg_mk, ScanStats.add]
  | cons c t ih =>
    obtain ⟨cn, cok, cnode⟩ := c
    cases cok with
    | true =>
      have hcount : List.countP (fun c => !c.2.1) ((cn, true, cnode) :: t)
          = List.countP (fun c => !c.2.1) t := by
        simp [List.countP_cons]
      show ScanStats.add (statsOfAgg (childAgg (p ++ "/" ++ cn) cnode))
          (statsOfAgg (childrenAgg p t))
        = ScanStats.add
            ⟨0, 0, List.countP (fun c => !c.2.1) ((cn, true, cnode) :: t)⟩
            (ScanStats.add (statsOfAgg (childAgg (p ++ "/" ++ cn) cnode))
              (sumStats ((okEntries p t).map
                (fun e => statsOfAgg (childAgg e.path e.node)))))
      rw [hcount, ih]
      simp only [ScanStats.add, ScanStats.mk.injEq]
      omega
    | false =>
      have hcount : List.countP (fun c => !c.2.1) ((cn, false, cnode) :: t)
          = List.countP (fun c => !c.2.1) t + 1 := by
        simp [List.countP_cons]
      show ScanStats.add ⟨0, 0, 1⟩ (statsOfAgg (childrenAgg p t))
        = ScanStats.add
            ⟨0, 0, List.countP (fun c => !c.2.1) ((cn, false, cnode) :: t)⟩
            (sumStats ((okEntries p t).map
              (fun e => statsOfAgg (childAgg e.path e.node))))
      rw [hcount, ih]
      simp only [ScanStats.add, ScanStats.mk.injEq]
      omega

/-- Per-item accounting: the whole-subtree stats of one queue item are
its own scan's stats delta plus the subtree stats of the subdirectories
it hands to the next level. -/
theorem scan_one_stats (cap : Nat) (it : String × FSNode) :
    itemStats it
      = ScanStats.add (scan_one cap it).2.1
          (sumStats ((scan_one cap it).2.2.map itemStats)) := by
  obtain ⟨p, n⟩ := it
  cases n with
  | dir readable cs =>
    cases readable with
    | true =>
      have hscan :
          scan_one cap (p, FSNode.dir true cs)
            = scan_dir_ok p cs (TopNHeap.new cap) ⟨0, 0, 0⟩ [] := by
        simp [scan_one, scan_directory]
      rw [hscan, scan_dir_ok_spec]
      have hperm := sortedEntries_perm p cs
      have hstats : sumStats ((sortedEntries p cs).map entryStats)
          = sumStats ((okEntries p cs).map entryStats) :=
        sumStats_perm (hperm.map entryStats)
      have hdirs : sumStats ((dirsOf (sortedEntries p cs)).map itemStats)
          = sumStats ((dirsOf (okEntries p cs)).map itemStats) := by
        refine sumStats_perm (List.Perm.map itemStats ?_)
        exact hperm.filterMap _
      simp only [List.nil_append]
      rw [hstats, hdirs]
      have hdecomp := entries_stats_decomp (okEntries p cs)
      have hres : itemStats (p, FSNode.dir true cs)
          = statsOfAgg (childrenAgg p cs) := rfl
      rw [hres, childrenAgg_stats]
      rw [← hdecomp]
      simp only [ScanStats.add, ScanStats.mk.injEq]
      omega
    | false =>
      simp [scan_one, scan_directory, itemStats_pair, nodeAgg, statsOfAgg_mk,
        sumStats, statsAdd_zero]
  | file s =>
    simp [scan_one, scan_directory, itemStats_pair, nodeAgg, statsOfAgg_mk,
      sumStats, statsAdd_zero]
  | symlink t =>
    simp [scan_one, scan_directory, itemStats_pair, nodeAgg, statsOfAgg_mk,
      sumStats, statsAdd_zero]
  | other =>
    simp [scan_one, scan_directory, itemStats_pair, nodeAgg, statsOfAgg_mk,
      sumStats, statsAdd_zero]
  | statErr =>
    simp [scan_one, scan_directory, itemStats_pair, nodeAgg, statsOfAgg_mk,
      sumStats, statsAdd_zero]

end Bfinder

namespace Bfinder

/-- Each classified subdirectory contributes exactly one `dirs_scanned`
tick, so the subdirectory list has that length. -/
theorem dirsOf_length :
    ∀ l : List DirEntry,
      (dirsOf l).length = (sumStats (l.map entryStats)).dirs_scanned := by
  intro l
  induction l with
  | nil => simp [dirsOf_nil, sumStats_nil]
  | cons e rest ih =>
    obtain ⟨nm, pth, nd⟩ := e
    cases nd with
    | file s =>
      show (dirsOf rest).length
        = (ScanStats.add ⟨1, 0, 0⟩ (sumStats (rest.map entryStats))).dirs_scanned
      rw [ih]
      simp [ScanStats.add]
    | dir readable cs =>
      show ((pth, FSNode.dir readable cs) :: dirsOf rest).length
        = (ScanStats.add ⟨0, 1, 0⟩ (sumStats (rest.map entryStats))).dirs_scanned
      simp only [List.length_cons, ih]
      simp [ScanStats.add]
      omega
    | symlink t =>
      show (dirsOf rest).length
        = (ScanStats.add ⟨0, 0, 0⟩ (sumStats (rest.map entryStats))).dirs_scanned
      rw [ih]
      simp [ScanStats.add]
    | other =>
      show (dirsOf rest).length
        = (ScanStats.add ⟨0, 0, 0⟩ (sumStats (rest.map entryStats))).dirs_scanned
      rw [ih]
      simp [ScanStats.add]
    | statErr =>
      show (dirsOf rest).length
        = (ScanStats.add ⟨0, 0, 1⟩ (sumStats (rest.map entryStats))).dirs_scanned
      rw [ih]
      simp [ScanStats.add]

/-- One map-closure invocation hands the next level exactly as many
subdirectories as its own `dirs_scanned` delta. -/
theorem scan_one_subdirs (cap : Nat) (it : String × FSNode) :
    (scan_one cap it).2.2.length = (scan_one cap it).2.1.dirs_scanned := by
  obtain ⟨p, n⟩ := it
  cases n with
  | dir readable cs =>
    cases readable with
    | true =>
      have hscan :
          scan_one cap (p, FSNode.dir true cs)
            = scan_dir_ok p cs (TopNHeap.new cap) ⟨0, 0, 0⟩ [] := by
        simp [scan_one, scan_directory]
      rw [hscan, scan_dir_ok_spec]
      simp only [List.nil_append]
      rw [dirsOf_length]
      simp [ScanStats.add]
    | false => rfl
  | file s => rfl
  | symlink t => rfl
  | other => rfl
  | statErr => rfl

theorem weight_pos (n : FSNode) : 1 ≤ n.weight := by
  cases n <;> simp [FSNode.weight]

theorem queueWeight_nil : queueWeight [] = 0 := rfl

theorem queueWeight_cons (it : String × FSNode) (q : List (String × FSNode)) :
    queueWeight (it :: q) = it.2.weight + queueWeight q := by
  simp [queueWeight]

theorem queueWeight_append (q1 q2 : List (String × FSNode)) :
    queueWeight (q1 ++ q2) = queueWeight q1 + queueWeight q2 := by
  simp [queueWeight]

/-- The discovered subdirectories of a listing weigh no more than the
listed nodes themselves. -/
theorem dirsOf_weight :
    ∀ l : List DirEntry,
      queueWeight (dirsOf l) ≤ (l.map (fun e => e.node.weight)).sum := by
  intro l
  induction l with
  | nil => simp [dirsOf_nil, queueWeight_nil]
  | cons e rest ih =>
    obtain ⟨nm, pth, nd⟩ := e
    cases nd with
    | file s =>
      show queueWeight (dirsOf rest)
        ≤ (FSNode.file s).weight + (rest.map (fun e => e.node.weight)).sum
      have := weight_pos (FSNode.file s)
      omega
    | dir readable cs =>
      show queueWeight ((pth, FSNode.dir readable cs) :: dirsOf rest)
        ≤ (FSNode.dir readable cs).weight + (rest.map (fun e => e.node.weight)).sum
      rw [queueWeight_cons]
      simp only
      omega
    | symlink t =>
      show queueWeight (dirsOf rest)
        ≤ (FSNode.symlink t).weight + (rest.map (fun e => e.node.weight)).sum
      have := weight_pos (FSNode.symlink t)
      omega
    | other =>
      show queueWeight (dirsOf rest)
        ≤ (FSNode.other).weight + (rest.map (fun e => e.node.weight)).sum
      have := weight_pos FSNode.other
      omega
    | statErr =>
      show queueWeight (dirsOf rest)
        ≤ (FSNode.statErr).weight + (rest.map (fun e => e.node.weight)).sum
      have := weight_pos FSNode.statErr
      omega

/-- The listed children weigh no more than the full children list. -/
theorem okEntries_weight (p : String) :
    ∀ cs : List (String × Bool × FSNode),
      ((okEntries p cs).map (fun e => e.node.weight)).sum
        ≤ FSNode.weight.weightChildren cs := by
  intro cs
  induction cs with
  | nil => simp [okEntries]
  | cons c t ih =>
    obtain ⟨cn, cok, cnode⟩ := c
    cases cok with
    | true =>
      show cnode.weight + ((okEntries p t).map (fun e => e.node.weight)).sum
        ≤ cnode.weight + FSNode.weight.weightChildren t
      omega
    | false =>
      show ((okEntries p t).map (fun e => e.node.weight)).sum
        ≤ cnode.weight + FSNode.weight.weightChildren t
      have := weight_pos cnode
      omega

/-- One scanned item hands the next level strictly less weight than its
own. -/
theorem scan_one_weight (cap : Nat) (it : String × FSNode) :
    queueWeight (scan_one cap it).2.2 + 1 ≤ it.2.weight := by
  obtain ⟨p, n⟩ := it
  cases n with
  | dir readable cs =>
    cases readable with
    | true =>
      have hscan :
          scan_one cap (p, FSNode.dir true cs)
            = scan_dir_ok p cs (TopNHeap.new cap) ⟨0, 0, 0⟩ [] := by
        simp [scan_one, scan_directory]
      rw [hscan, scan_dir_ok_spec]
      simp only [List.nil_append]
      have h1 := dirsOf_weight (sortedEntries p cs)
      have h2 : ((sortedEntries p cs).map (fun e => e.node.weight)).sum
          = ((okEntries p cs).map (fun e => e.node.weight)).sum :=
        ((sortedEntries_perm p cs).map (fun e => e.node.weight)).sum_eq
      have h3 := okEntries_weight p cs
      show queueWeight (dirsOf (sortedEntries p cs)) + 1
        ≤ (FSNode.dir true cs).weight
      have h4 : (FSNode.dir true cs).weight
          = 1 + FSNode.weight.weightChildren cs := rfl
      omega
    | false =>
      show queueWeight [] + 1 ≤ (FSNode.dir false cs).weight
      rw [queueWeight_nil]
      exact weight_pos _
  | file s =>
    show queueWeight [] + 1 ≤ (FSNode.file s).weight
    rw [queueWeight_nil]
    exact weight_pos _
  | symlink t =>
    show queueWeight [] + 1 ≤ (FSNode.symlink t).weight
    rw [queueWeight_nil]
    exact weight_pos _
  | other =>
    show queueWeight [] + 1 ≤ FSNode.other.weight
    rw [queueWeight_nil]
    exact weight_pos _
  | statErr =>
    show queueWeight [] + 1 ≤ FSNode.statErr.weight
    rw [queueWeight_nil]
    exact weight_pos _

/-- One whole round hands the next level strictly less weight than the
current queue carries (when the queue is nonempty). -/
theorem next_level_weight (cap : Nat) :
    ∀ q : List (String × FSNode),
      queueWeight (((q.map (scan_one cap)).map (fun r => r.2.2)).flatten)
          + q.length
        ≤ queueWeight q := by
  intro q
  induction q with
  | nil => simp [queueWeight_nil]
  | cons it q ih =>
    simp only [List.map_cons, List.flatten_cons, queueWeight_append,
      List.length_cons, queueWeight_cons]
    have := scan_one_weight cap it
    omega

end Bfinder

namespace Bfinder

/-- Summing whole-subtree stats over a level splits into the level's
own scan deltas plus the subtree stats of the next level's queue. -/
theorem level_decomp (cap : Nat) :
    ∀ q : List (String × FSNode),
      sumStats (q.map itemStats)
        = ScanStats.add
            (sumStats ((q.map (scan_one cap)).map (fun r => r.2.1)))
            (sumStats
              ((((q.map (scan_one cap)).map (fun r => r.2.2)).flatten).map
                itemStats)) := by
  intro q
  induction q with
  | nil => simp [sumStats_nil, zero_statsAdd]
  | cons it q ih =>
    simp only [List.map_cons, sumStats_cons, List.flatten_cons,
      List.map_append, sumStats_append]
    rw [ih, scan_one_stats cap it]
    simp only [ScanStats.add, ScanStats.mk.injEq]
    omega

/-- The flattened next level is as long as the level's total
`dirs_scanned` delta. -/
theorem level_next_length (cap : Nat) :
    ∀ q : List (String × FSNode),
      (((q.map (scan_one cap)).map (fun r => r.2.2)).flatten).length
        = (sumStats ((q.map (scan_one cap)).map (fun r => r.2.1))).dirs_scanned := by
  intro q
  induction q with
  | nil => simp [sumStats_nil]
  | cons it q ih =>
    simp only [List.map_cons, sumStats_cons, List.flatten_cons,
      List.length_append, ih, scan_one_subdirs cap it]
    simp [ScanStats.add]

/-- Master stats lemma: with sufficient fuel, the level loop's stats
are the sum of the whole-subtree stats of the queue items. -/
theorem bfs_rounds_stats (cap : Nat) :
    ∀ (fuel : Nat) (q : List (String × FSNode)), queueWeight q ≤ fuel →
      (bfs_rounds cap fuel q).2 = sumStats (q.map itemStats) := by
  intro fuel
  induction fuel with
  | zero =>
    intro q hq
    cases q with
    | nil => simp [bfs_rounds, sumStats_nil]
    | cons it q' =>
      exfalso
      have h1 := weight_pos it.2
      have h2 : queueWeight (it :: q') = it.2.weight + queueWeight q' :=
        queueWeight_cons it q'
      omega
  | succ f ih =>
    intro q hq
    cases q with
    | nil => simp [bfs_rounds, sumStats_nil]
    | cons q0 q' =>
      have hnext := next_level_weight cap (q0 :: q')
      have hle : queueWeight ((((q0 :: q').map (scan_one cap)).map
          (fun r => r.2.2)).flatten) ≤ f := by
        have := List.length_cons q0 q'
        omega
      simp only [bfs_rounds]
      rw [ih _ hle, level_decomp cap (q0 :: q')]

/-- Master count lemma: with sufficient fuel, the loop returns one
selector per queue item plus one per `dirs_scanned` tick. -/
theorem bfs_rounds_count (cap : Nat) :
    ∀ (fuel : Nat) (q : List (String × FSNode)), queueWeight q ≤ fuel →
      (bfs_rounds cap fuel q).1.length
        = q.length + (bfs_rounds cap fuel q).2.dirs_scanned := by
  intro fuel
  induction fuel with
  | zero =>
    intro q hq
    cases q with
    | nil => simp [bfs_rounds]
    | cons it q' =>
      exfalso
      have h1 := weight_pos it.2
      have h2 : queueWeight (it :: q') = it.2.weight + queueWeight q' :=
        queueWeight_cons it q'
      omega
  | succ f ih =>
    intro q hq
    cases q with
    | nil => simp [bfs_rounds]
    | cons q0 q' =>
      have hnext := next_level_weight cap (q0 :: q')
      have hle : queueWeight ((((q0 :: q').map (scan_one cap)).map
          (fun r => r.2.2)).flatten) ≤ f := by
        have := List.length_cons q0 q'
        omega
      simp only [bfs_rounds]
      rw [List.length_append, List.length_map, ih _ hle,
        level_next_length cap (q0 :: q')]
      simp only [ScanStats.add]
      simp [List.length_cons]

/-- With any two sufficient fuels the loop computes the same value. -/
theorem bfs_rounds_congr (cap : Nat) :
    ∀ (f1 f2 : Nat) (q : List (String × FSNode)),
      queueWeight q ≤ f1 → queueWeight q ≤ f2 →
      bfs_rounds cap f1 q = bfs_rounds cap f2 q := by
  intro f1
  induction f1 with
  | zero =>
    intro f2 q h1 h2
    cases q with
    | nil => cases f2 <;> simp [bfs_rounds]
    | cons it q' =>
      exfalso
      have := weight_pos it.2
      have := queueWeight_cons it q'
      omega
  | succ f ih =>
    intro f2 q h1 h2
    cases q with
    | nil => cases f2 <;> simp [bfs_rounds]
    | cons q0 q' =>
      cases f2 with
      | zero =>
        exfalso
        have := weight_pos q0.2
        have := queueWeight_cons q0 q'
        omega
      | succ f2' =>
        have hnext := next_level_weight cap (q0 :: q')
        have hle1 : queueWeight ((((q0 :: q').map (scan_one cap)).map
            (fun r => r.2.2)).flatten) ≤ f := by
          have := List.length_cons q0 q'
          omega
        have hle2 : queueWeight ((((q0 :: q').map (scan_one cap)).map
            (fun r => r.2.2)).flatten) ≤ f2' := by
          have := List.length_cons q0 q'
          omega
        simp only [bfs_rounds]
        rw [ih f2' _ hle1 hle2]

end Bfinder

namespace Bfinder

/-- The bounded selector only ever holds entries that were inserted. -/
theorem heapFold_subset (c : Nat) (l : List FileEntry) :
    ∀ e, e ∈ (heapFold c l).heap → e ∈ l := by
  intro e he
  rw [heapFold_eq] at he
  have h1 : e ∈ List.insertionSort FileEntry.le l := List.drop_subset _ _ he
  exact (List.perm_insertionSort FileEntry.le l).subset h1

/-- Every regular-file entry produced by listing a directory's children
appears in the directory's reference aggregate. -/
theorem regulars_entries_sub (p : String) :
    ∀ (cs : List (String × Bool × FSNode)) (e : FileEntry),
      e ∈ regularsOf (okEntries p cs) → e ∈ (childrenAgg p cs).entries := by
  intro cs
  induction cs with
  | nil => intro e he; exact absurd he (by simp [okEntries, regularsOf])
  | cons c t ih =>
    obtain ⟨cn, cok, cnode⟩ := c
    intro e he
    cases cok with
    | true =>
      show e ∈ (childAgg (p ++ "/" ++ cn) cnode).entries
          ++ (childrenAgg p t).entries
      cases cnode with
      | file s =>
        have he' : e ∈ (⟨s, p ++ "/" ++ cn⟩ : FileEntry)
            :: regularsOf (okEntries p t) := he
        rcases List.mem_cons.mp he' with h | h
        · exact List.mem_append_left _ (h ▸ List.mem_singleton_self _)
        · exact List.mem_append_right _ (ih e h)
      | dir readable cs' =>
        have he' : e ∈ regularsOf (okEntries p t) := he
        exact List.mem_append_right _ (ih e he')
      | symlink tg =>
        have he' : e ∈ regularsOf (okEntries p t) := he
        exact List.mem_append_right _ (ih e he')
      | other =>
        have he' : e ∈ regularsOf (okEntries p t) := he
        exact List.mem_append_right _ (ih e he')
      | statErr =>
        have he' : e ∈ regularsOf (okEntries p t) := he
        exact List.mem_append_right _ (ih e he')
    | false =>
      show e ∈ ([] : List FileEntry) ++ (childrenAgg p t).entries
      have he' : e ∈ regularsOf (okEntries p t) := he
      exact List.mem_append_right _ (ih e he')

/-- The reference aggregate of a discovered subdirectory is contained
in its parent directory's aggregate. -/
theorem dirs_entries_sub (p : String) :
    ∀ (cs : List (String × Bool × FSNode)) (q1 : String) (m : FSNode),
      (q1, m) ∈ dirsOf (okEntries p cs) →
      ∀ e, e ∈ (nodeAgg q1 m).entries → e ∈ (childrenAgg p cs).entries := by
  intro cs
  induction cs with
  | nil =>
    intro q1 m hm
    exact absurd hm (by simp [okEntries, dirsOf])
  | cons c t ih =>
    obtain ⟨cn, cok, cnode⟩ := c
    intro q1 m hm e he
    cases cok with
    | true =>
      show e ∈ (childAgg (p ++ "/" ++ cn) cnode).entries
          ++ (childrenAgg p t).entries
      cases cnode with
      | file s =>
        have hm' : (q1, m) ∈ dirsOf (okEntries p t) := hm
        exact List.mem_append_right _ (ih q1 m hm' e he)
      | dir readable cs' =>
        have hm' : (q1, m) ∈ (p ++ "/" ++ cn, FSNode.dir readable cs')
            :: dirsOf (okEntries p t) := hm
        rcases List.mem_cons.mp hm' with h | h
        · have hq1 : q1 = p ++ "/" ++ cn := congrArg Prod.fst h
          have hq2 : m = FSNode.dir readable cs' := congrArg Prod.snd h
          subst hq1
          subst hq2
          cases readable with
          | true =>
            have he' : e ∈ (childrenAgg (p ++ "/" ++ cn) cs').entries := he
            exact List.mem_append_left _ he'
          | false => exact absurd he (by simp [nodeAgg])
        · exact List.mem_append_right _ (ih q1 m h e he)
      | symlink tg =>
        have hm' : (q1, m) ∈ dirsOf (okEntries p t) := hm
        exact List.mem_append_right _ (ih q1 m hm' e he)
      | other =>
        have hm' : (q1, m) ∈ dirsOf (okEntries p t) := hm
        exact List.mem_append_right _ (ih q1 m hm' e he)
      | statErr =>
        have hm' : (q1, m) ∈ dirsOf (okEntries p t) := hm
        exact List.mem_append_right _ (ih q1 m hm' e he)
    | false =>
      show e ∈ ([] : List FileEntry) ++ (childrenAgg p t).entries
      have hm' : (q1, m) ∈ dirsOf (okEntries p t) := hm
      exact List.mem_append_right _ (ih q1 m hm' e he)

/-- Entries held by one item's selector come from that item's subtree. -/
theorem scan_one_heap_sub (cap : Nat) (it : String × FSNode) :
    ∀ e, e ∈ (scan_one cap it).1.heap → e ∈ (nodeAgg it.1 it.2).entries := by
  obtain ⟨p, n⟩ := it
  intro e he
  cases n with
  | dir readable cs =>
    cases readable with
    | true =>
      have hscan :
          scan_one cap (p, FSNode.dir true cs)
            = scan_dir_ok p cs (TopNHeap.new cap) ⟨0, 0, 0⟩ [] := by
        simp [scan_one, scan_directory]
      rw [hscan, scan_dir_ok_spec] at he
      have he1 : e ∈ regularsOf (sortedEntries p cs) :=
        heapFold_subset cap (regularsOf (sortedEntries p cs)) e he
      have he2 : e ∈ regularsOf (okEntries p cs) :=
        (((sortedEntries_perm p cs).filterMap _).mem_iff).mp he1
      exact regulars_entries_sub p cs e he2
    | false => exact absurd he (by simp [scan_one, scan_directory, TopNHeap.new])
  | file s => exact absurd he (by simp [scan_one, scan_directory, TopNHeap.new])
  | symlink t => exact absurd he (by simp [scan_one, scan_directory, TopNHeap.new])
  | other => exact absurd he (by simp [scan_one, scan_directory, TopNHeap.new])
  | statErr => exact absurd he (by simp [scan_one, scan_directory, TopNHeap.new])

/-- Subtrees handed to the next level stay within the item's subtree. -/
theorem scan_one_subs_sub (cap : Nat) (it : String × FSNode) :
    ∀ q1 m, (q1, m) ∈ (scan_one cap it).2.2 →
      ∀ e, e ∈ (nodeAgg q1 m).entries → e ∈ (nodeAgg it.1 it.2).entries := by
  obtain ⟨p, n⟩ := it
  intro q1 m hm e he
  cases n with
  | dir readable cs =>
    cases readable with
    | true =>
      have hscan :
          scan_one cap (p, FSNode.dir true cs)
            = scan_dir_ok p cs (TopNHeap.new cap) ⟨0, 0, 0⟩ [] := by
        simp [scan_one, scan_directory]
      rw [hscan, scan_dir_ok_spec] at hm
      simp only [List.nil_append] at hm
      have hm' : (q1, m) ∈ dirsOf (okEntries p cs) :=
        (((sortedEntries_perm p cs).filterMap _).mem_iff).mp hm
      exact dirs_entries_sub p cs q1 m hm' e he
    | false => exact absurd hm (by simp [scan_one, scan_directory])
  | file s => exact absurd hm (by simp [scan_one, scan_directory])
  | symlink t => exact absurd hm (by simp [scan_one, scan_directory])
  | other => exact absurd hm (by simp [scan_one, scan_directory])
  | statErr => exact absurd hm (by simp [scan_one, scan_directory])

/-- Master containment lemma: every entry held by any selector the loop
returns is a regular file discovered in the corresponding subtree. -/
theorem bfs_rounds_entries (cap : Nat) :
    ∀ (fuel : Nat) (q : List (String × FSNode)), queueWeight q ≤ fuel →
      ∀ e, e ∈ ((bfs_rounds cap fuel q).1.map TopNHeap.into_vec).flatten →
        e ∈ (q.map (fun it => (nodeAgg it.1 it.2).entries)).flatten := by
  intro fuel
  induction fuel with
  | zero =>
    intro q hq e he
    cases q with
    | nil => exact absurd he (by simp [bfs_rounds])
    | cons it q' =>
      exfalso
      have h1 := weight_pos it.2
      have h2 : queueWeight (it :: q') = it.2.weight + queueWeight q' :=
        queueWeight_cons it q'
      omega
  | succ f ih =>
    intro q hq e he
    cases q with
    | nil => exact absurd he (by simp [bfs_rounds])
    | cons q0 q' =>
      have hnext := next_level_weight cap (q0 :: q')
      have hle : queueWeight ((((q0 :: q').map (scan_one cap)).map
          (fun r => r.2.2)).flatten) ≤ f := by
        have := List.length_cons q0 q'
        omega
      simp only [bfs_rounds, List.map_append, List.flatten_append] at he
      rcases List.mem_append.mp he with hlev | hrest
      · rcases List.mem_flatten.mp hlev with ⟨hl, hhl, hehl⟩
        rcases List.mem_map.mp hhl with ⟨r, hr, hrl⟩
        rcases List.mem_map.mp hr with ⟨r0, hr0, hr0r⟩
        rcases List.mem_map.mp hr0 with ⟨it, hit, hitr0⟩
        have hheap : e ∈ (scan_one cap it).1.heap := by
          rw [← hitr0] at hr0r
          rw [← hr0r] at hrl
          rw [← hrl] at hehl
          exact hehl
        have hent := scan_one_heap_sub cap it e hheap
        exact List.mem_flatten.mpr
          ⟨(nodeAgg it.1 it.2).entries, List.mem_map.mpr ⟨it, hit, rfl⟩, hent⟩
      · have hnextmem := ih _ hle e hrest
        rcases List.mem_flatten.mp hnextmem with ⟨el, hel, heel⟩
        rcases List.mem_map.mp hel with ⟨sub, hsub, hsubel⟩
        obtain ⟨q1, m⟩ := sub
        rcases List.mem_flatten.mp hsub with ⟨subs, hsubs, hsubssub⟩
        rcases List.mem_map.mp hsubs with ⟨r, hr, hrsubs⟩
        rcases List.mem_map.mp hr with ⟨it, hit, hitr⟩
        have hmem : (q1, m) ∈ (scan_one cap it).2.2 := by
          rw [← hitr] at hrsubs
          rw [← hrsubs] at hsubssub
          exact hsubssub
        have he' : e ∈ (nodeAgg q1 m).entries := by
          rw [← hsubel] at heel
          exact heel
        have hent := scan_one_subs_sub cap it q1 m hmem e he'
        exact List.mem_flatten.mpr
          ⟨(nodeAgg it.1 it.2).entries, List.mem_map.mpr ⟨it, hit, rfl⟩, hent⟩

end Bfinder

namespace Bfinder

instance : IsTotal DirEntry DirEntry.nameLe :=
  ⟨fun a b => le_total a.name.data b.name.data⟩

instance : IsTrans DirEntry DirEntry.nameLe :=
  ⟨fun _ _ _ hab hbc => le_trans hab hbc⟩

section SortFilter

variable {α : Type} (r : α → α → Prop) [DecidableRel r] (pr : α → Bool)

theorem filter_orderedInsert_neg (a : α) (hpa : pr a = false) :
    ∀ l : List α,
      (List.orderedInsert r a l).filter pr = l.filter pr := by
  intro l
  induction l with
  | nil => simp [List.orderedInsert, hpa]
  | cons b t ih =>
    by_cases hab : r a b
    · simp [List.orderedInsert, hab, hpa]
    · simp only [List.orderedInsert, if_neg hab, List.filter_cons]
      rw [ih]

theorem filter_orderedInsert_pos [IsTrans α r] (a : α) (hpa : pr a = true) :
    ∀ l : List α, l.Sorted r →
      (List.orderedInsert r a l).filter pr
        = List.orderedInsert r a (l.filter pr) := by
  intro l
  induction l with
  | nil => simp [List.orderedInsert, hpa]
  | cons b t ih =>
    intro hs
    by_cases hab : r a b
    · cases hpb : pr b with
      | true =>
        simp [List.orderedInsert, hab, hpa, hpb, List.filter_cons]
      | false =>
        simp only [List.orderedInsert, if_pos hab, List.filter_cons, hpa, hpb,
          ite_true, ite_false, cond_true, cond_false]
        have hsub : ∀ x ∈ t.filter pr, r a x := by
          intro x hx
          have hxt : x ∈ t := List.mem_of_mem_filter hx
          exact Trans.trans hab (List.rel_of_sorted_cons hs x hxt)
        cases hft : t.filter pr with
        | nil => simp [List.orderedInsert]
        | cons x xs =>
          have hax : r a x := hsub x (hft ▸ List.mem_cons_self x xs)
          simp [List.orderedInsert, hax]
    · cases hpb : pr b with
      | true =>
        simp only [List.orderedInsert, if_neg hab, List.filter_cons, hpb,
          cond_true]
        rw [ih hs.of_cons]
        simp [List.orderedInsert, hab]
      | false =>
        simp only [List.orderedInsert, if_neg hab, List.filter_cons, hpb,
          cond_false]
        exact ih hs.of_cons

/-- A stable sort commutes with `filter`. -/
theorem insertionSort_filter [IsTotal α r] [IsTrans α r] :
    ∀ l : List α,
      List.insertionSort r (l.filter pr)
        = (List.insertionSort r l).filter pr := by
  intro l
  induction l with
  | nil => simp
  | cons a t ih =>
    cases hpa : pr a with
    | true =>
      have hf : (a :: t).filter pr = a :: t.filter pr := by
        simp [List.filter_cons, hpa]
      rw [hf]
      show List.orderedInsert r a (List.insertionSort r (t.filter pr))
        = (List.orderedInsert r a (List.insertionSort r t)).filter pr
      rw [ih, filter_orderedInsert_pos r pr a hpa _
        (List.sorted_insertionSort r t)]
    | false =>
      have hf : (a :: t).filter pr = t.filter pr := by
        simp [List.filter_cons, hpa]
      rw [hf]
      show List.insertionSort r (t.filter pr)
        = (List.orderedInsert r a (List.insertionSort r t)).filter pr
      rw [filter_orderedInsert_neg r pr a hpa (List.insertionSort r t), ih]

end SortFilter

end Bfinder

namespace Bfinder

/-- Dropping bad children before listing equals filtering the listed
entries to those whose classification will succeed. -/
theorem okEntries_good (p : String) :
    ∀ cs : List (String × Bool × FSNode),
      okEntries p (goodChildren cs)
        = (okEntries p cs).filter (fun e => !classifyFails e.node) := by
  intro cs
  induction cs with
  | nil => simp [okEntries, goodChildren]
  | cons c t ih =>
    obtain ⟨cn, cok, cnode⟩ := c
    cases cok with
    | true =>
      cases hb : classifyFails cnode with
      | false =>
        have hg : goodChildren ((cn, true, cnode) :: t)
            = (cn, true, cnode) :: goodChildren t := by
          simp [goodChildren, List.filter_cons, hb]
        have hok : okEntries p ((cn, true, cnode) :: t)
            = mkEntry p (cn, true, cnode) :: okEntries p t := rfl
        have hokg : okEntries p ((cn, true, cnode) :: goodChildren t)
            = mkEntry p (cn, true, cnode) :: okEntries p (goodChildren t) := rfl
        rw [hg, hokg, ih, hok, List.filter_cons]
        simp [mkEntry, hb]
      | true =>
        have hg : goodChildren ((cn, true, cnode) :: t) = goodChildren t := by
          simp [goodChildren, List.filter_cons, hb]
        have hok : okEntries p ((cn, true, cnode) :: t)
            = mkEntry p (cn, true, cnode) :: okEntries p t := rfl
        rw [hg, ih, hok, List.filter_cons]
        simp [mkEntry, hb]
    | false =>
      have hg : goodChildren ((cn, false, cnode) :: t) = goodChildren t := by
        simp [goodChildren, List.filter_cons]
      have hok : okEntries p ((cn, false, cnode) :: t) = okEntries p t := rfl
      rw [hg, ih, hok]

/-- Entries that fail classification contribute no regular files. -/
theorem regularsOf_filter :
    ∀ l : List DirEntry,
      regularsOf (l.filter (fun e => !classifyFails e.node)) = regularsOf l := by
  intro l
  induction l with
  | nil => rfl
  | cons e rest ih =>
    obtain ⟨nm, pth, nd⟩ := e
    cases nd with
    | file s =>
      have hf : ((⟨nm, pth, FSNode.file s⟩ : DirEntry) :: rest).filter
          (fun e => !classifyFails e.node)
          = ⟨nm, pth, FSNode.file s⟩ :: rest.filter (fun e => !classifyFails e.node) := by
        simp [List.filter_cons, classifyFails]
      rw [hf]
      show (⟨s, pth⟩ : FileEntry) :: regularsOf (rest.filter (fun e => !classifyFails e.node))
        = (⟨s, pth⟩ : FileEntry) :: regularsOf rest
      rw [ih]
    | dir readable cs =>
      have hf : ((⟨nm, pth, FSNode.dir readable cs⟩ : DirEntry) :: rest).filter
          (fun e => !classifyFails e.node)
          = ⟨nm, pth, FSNode.dir readable cs⟩
            :: rest.filter (fun e => !classifyFails e.node) := by
        simp [List.filter_cons, classifyFails]
      rw [hf]
      show regularsOf (rest.filter (fun e => !classifyFails e.node)) = regularsOf rest
      rw [ih]
    | symlink tg =>
      have hf : ((⟨nm, pth, FSNode.symlink tg⟩ : DirEntry) :: rest).filter
          (fun e => !classifyFails e.node)
          = ⟨nm, pth, FSNode.symlink tg⟩
            :: rest.filter (fun e => !classifyFails e.node) := by
        simp [List.filter_cons, classifyFails]
      rw [hf]
      show regularsOf (rest.filter (fun e => !classifyFails e.node)) = regularsOf rest
      rw [ih]
    | other =>
      have hf : ((⟨nm, pth, FSNode.other⟩ : DirEntry) :: rest).filter
          (fun e => !classifyFails e.node)
          = ⟨nm, pth, FSNode.other⟩ :: rest.filter (fun e => !classifyFails e.node) := by
        simp [List.filter_cons, classifyFails]
      rw [hf]
      show regularsOf (rest.filter (fun e => !classifyFails e.node)) = regularsOf rest
      rw [ih]
    | statErr =>
      have hf : ((⟨nm, pth, FSNode.statErr⟩ : DirEntry) :: rest).filter
          (fun e => !classifyFails e.node)
          = rest.filter (fun e => !classifyFails e.node) := by
        simp [List.filter_cons, classifyFails]
      rw [hf, ih]
      show regularsOf rest = regularsOf (⟨nm, pth, FSNode.statErr⟩ :: rest)
      rfl

/-- Entries that fail classification contribute no subdirectories. -/
theorem dirsOf_filter :
    ∀ l : List DirEntry,
      dirsOf (l.filter (fun e => !classifyFails e.node)) = dirsOf l := by
  intro l
  induction l with
  | nil => rfl
  | cons e rest ih =>
    obtain ⟨nm, pth, nd⟩ := e
    cases nd with
    | file s =>
      have hf : ((⟨nm, pth, FSNode.file s⟩ : DirEntry) :: rest).filter
          (fun e => !classifyFails e.node)
          = ⟨nm, pth, FSNode.file s⟩ :: rest.filter (fun e => !classifyFails e.node) := by
        simp [List.filter_cons, classifyFails]
      rw [hf]
      show dirsOf (rest.filter (fun e => !classifyFails e.node)) = dirsOf rest
      rw [ih]
    | dir readable cs =>
      have hf : ((⟨nm, pth, FSNode.dir readable cs⟩ : DirEntry) :: rest).filter
          (fun e => !classifyFails e.node)
          = ⟨nm, pth, FSNode.dir readable cs⟩
            :: rest.filter (fun e => !classifyFails e.node) := by
        simp [List.filter_cons, classifyFails]
      rw [hf]
      show (pth, FSNode.dir readable cs)
            :: dirsOf (rest.filter (fun e => !classifyFails e.node))
        = (pth, FSNode.dir readable cs) :: dirsOf rest
      rw [ih]
    | symlink tg =>
      have hf : ((⟨nm, pth, FSNode.symlink tg⟩ : DirEntry) :: rest).filter
          (fun e => !classifyFails e.node)
          = ⟨nm, pth, FSNode.symlink tg⟩
            :: rest.filter (fun e => !classifyFails e.node) := by
        simp [List.filter_cons, classifyFails]
      rw [hf]
      show dirsOf (rest.filter (fun e => !classifyFails e.node)) = dirsOf rest
      rw [ih]
    | other =>
      have hf : ((⟨nm, pth, FSNode.other⟩ : DirEntry) :: rest).filter
          (fun e => !classifyFails e.node)
          = ⟨nm, pth, FSNode.other⟩ :: rest.filter (fun e => !classifyFails e.node) := by
        simp [List.filter_cons, classifyFails]
      rw [hf]
      show dirsOf (rest.filter (fun e => !classifyFails e.node)) = dirsOf rest
      rw [ih]
    | statErr =>
      have hf : ((⟨nm, pth, FSNode.statErr⟩ : DirEntry) :: rest).filter
          (fun e => !classifyFails e.node)
          = rest.filter (fun e => !classifyFails e.node) := by
        simp [List.filter_cons, classifyFails]
      rw [hf, ih]
      show dirsOf rest = dirsOf (⟨nm, pth, FSNode.statErr⟩ :: rest)
      rfl

/-- The per-entry stats of a listing split into the failing entries'
errors plus the stats of the non-failing entries. -/
theorem entryStats_filter_sum :
    ∀ l : List DirEntry,
      sumStats (l.map entryStats)
        = ScanStats.add ⟨0, 0, l.countP (fun e => classifyFails e.node)⟩
            (sumStats ((l.filter (fun e => !classifyFails e.node)).map
              entryStats)) := by
  intro l
  induction l with
  | nil => simp [sumStats_nil, ScanStats.add]
  | cons e rest ih =>
    obtain ⟨nm, pth, nd⟩ := e
    cases hb : classifyFails nd with
    | false =>
      have hf : ((⟨nm, pth, nd⟩ : DirEntry) :: rest).filter
          (fun e => !classifyFails e.node)
          = ⟨nm, pth, nd⟩ :: rest.filter (fun e => !classifyFails e.node) := by
        simp [List.filter_cons, hb]
      have hcnt : ((⟨nm, pth, nd⟩ : DirEntry) :: rest).countP
          (fun e => classifyFails e.node)
          = rest.countP (fun e => classifyFails e.node) := by
        simp [List.countP_cons, hb]
      rw [List.map_cons, sumStats_cons, hf, hcnt, List.map_cons, sumStats_cons,
        ih]
      simp only [ScanStats.add, ScanStats.mk.injEq]
      omega
    | true =>
      have hnd : nd = FSNode.statErr := by
        cases nd <;> simp [classifyFails] at hb ⊢
      subst hnd
      have hf : ((⟨nm, pth, FSNode.statErr⟩ : DirEntry) :: rest).filter
          (fun e => !classifyFails e.node)
          = rest.filter (fun e => !classifyFails e.node) := by
        simp [List.filter_cons, classifyFails]
      have hcnt : ((⟨nm, pth, FSNode.statErr⟩ : DirEntry) :: rest).countP
          (fun e => classifyFails e.node)
          = rest.countP (fun e => classifyFails e.node) + 1 := by
        simp [List.countP_cons, classifyFails]
      rw [List.map_cons, sumStats_cons, hf, hcnt, ih]
      have hes : entryStats ⟨nm, pth, FSNode.statErr⟩ = ⟨0, 0, 1⟩ := rfl
      rw [hes]
      simp only [ScanStats.add, ScanStats.mk.injEq]
      omega

/-- Good children never fail at listing. -/
theorem goodChildren_ok_count :
    ∀ cs : List (String × Bool × FSNode),
      (goodChildren cs).countP (fun c => !c.2.1) = 0 := by
  intro cs
  induction cs with
  | nil => rfl
  | cons c t ih =>
    obtain ⟨cn, cok, cnode⟩ := c
    cases cok with
    | true =>
      cases hb : classifyFails cnode with
      | false =>
        have hg : goodChildren ((cn, true, cnode) :: t)
            = (cn, true, cnode) :: goodChildren t := by
          simp [goodChildren, List.filter_cons, hb]
        rw [hg, List.countP_cons, ih]
        simp
      | true =>
        have hg : goodChildren ((cn, true, cnode) :: t) = goodChildren t := by
          simp [goodChildren, List.filter_cons, hb]
        rw [hg, ih]
    | false =>
      have hg : goodChildren ((cn, false, cnode) :: t) = goodChildren t := by
        simp [goodChildren, List.filter_cons]
      rw [hg, ih]

/-- A child fails at the entry level iff its listing fails or its
classification fails; the two counts add up. -/
theorem badChildCount_split (p : String) :
    ∀ cs : List (String × Bool × FSNode),
      badChildCount cs
        = cs.countP (fun c => !c.2.1)
          + (okEntries p cs).countP (fun e => classifyFails e.node) := by
  intro cs
  induction cs with
  | nil => rfl
  | cons c t ih =>
    obtain ⟨cn, cok, cnode⟩ := c
    cases cok with
    | true =>
      have hok : okEntries p ((cn, true, cnode) :: t)
          = mkEntry p (cn, true, cnode) :: okEntries p t := rfl
      rw [hok]
      unfold badChildCount at ih ⊢
      rw [List.countP_cons, List.countP_cons, List.countP_cons, ih]
      cases hb : classifyFails cnode with
      | false => simp [mkEntry, hb]
      | true => simp [mkEntry, hb]; omega
    | false =>
      have hok : okEntries p ((cn, false, cnode) :: t) = okEntries p t := rfl
      rw [hok]
      unfold badChildCount at ih ⊢
      rw [List.countP_cons, List.countP_cons, ih]
      simp
      omega

end Bfinder

namespace Bfinder

/-- Entry-level error isolation: a directory scan started on a fresh
selector behaves exactly as if the failing children were absent, except
that it counts one error per failing child. -/
theorem scan_dir_skips_bad (p : String) (cs : List (String × Bool × FSNode))
    (cap : Nat) (s : ScanStats) (sub : List (String × FSNode)) :
    scan_dir_ok p cs (TopNHeap.new cap) s sub
      = ((scan_dir_ok p (goodChildren cs) (TopNHeap.new cap) s sub).1,
         ⟨(scan_dir_ok p (goodChildren cs) (TopNHeap.new cap) s sub).2.1.files_scanned,
          (scan_dir_ok p (goodChildren cs) (TopNHeap.new cap) s sub).2.1.dirs_scanned,
          (scan_dir_ok p (goodChildren cs) (TopNHeap.new cap) s sub).2.1.errors
            + badChildCount cs⟩,
         (scan_dir_ok p (goodChildren cs) (TopNHeap.new cap) s sub).2.2) := by
  have hSE : sortedEntries p (goodChildren cs)
      = (sortedEntries p cs).filter (fun e => !classifyFails e.node) := by
    unfold sortedEntries
    rw [okEntries_good,
      insertionSort_filter DirEntry.nameLe (fun e => !classifyFails e.node)
        (okEntries p cs)]
  have hreg : regularsOf (sortedEntries p (goodChildren cs))
      = regularsOf (sortedEntries p cs) := by
    rw [hSE, regularsOf_filter]
  have hdir : dirsOf (sortedEntries p (goodChildren cs))
      = dirsOf (sortedEntries p cs) := by
    rw [hSE, dirsOf_filter]
  rw [scan_dir_ok_spec, scan_dir_ok_spec]
  simp only [Prod.mk.injEq]
  refine ⟨by rw [hreg], ?_, by rw [hdir]⟩
  rw [goodChildren_ok_count]
  have hsum := entryStats_filter_sum (sortedEntries p cs)
  rw [← hSE] at hsum
  have hcntperm : (sortedEntries p cs).countP (fun e => classifyFails e.node)
      = (okEntries p cs).countP (fun e => classifyFails e.node) :=
    (sortedEntries_perm p cs).countP_eq _
  have hbad := badChildCount_split p cs
  rw [hsum, hcntperm, hbad]
  simp only [ScanStats.add, ScanStats.mk.injEq]
  omega

end Bfinder

namespace Bfinder

theorem bfs_rounds_nil (cap fuel : Nat) :
    bfs_rounds cap fuel [] = ([], ⟨0, 0, 0⟩) := by
  cases fuel <;> rfl

theorem bfs_rounds_succ (cap fuel : Nat) (q : List (String × FSNode))
    (hq : q ≠ []) :
    bfs_rounds cap (fuel + 1) q
      = ((q.map (scan_one cap)).map (fun r => r.1)
          ++ (bfs_rounds cap fuel
              (((q.map (scan_one cap)).map (fun r => r.2.2)).flatten)).1,
         ScanStats.add
           (sumStats ((q.map (scan_one cap)).map (fun r => r.2.1)))
           (bfs_rounds cap fuel
             (((q.map (scan_one cap)).map (fun r => r.2.2)).flatten)).2) := by
  cases q with
  | nil => exact absurd rfl hq
  | cons a l => rfl

theorem queueWeight_pos (q : List (String × FSNode)) (hq : q ≠ []) :
    1 ≤ queueWeight q := by
  cases q with
  | nil => exact absurd rfl hq
  | cons it q' =>
    have h1 := weight_pos it.2
    have h2 := queueWeight_cons it q'
    omega

/-- Directory-level error isolation: an unreadable directory anywhere in
the work queue contributes exactly one empty selector (at its position)
and one error, and the rest of the traversal is unchanged. -/
theorem bfs_run_bad_dir (cap : Nat) (q1 q2 : List (String × FSNode))
    (p : String) (cs : List (String × Bool × FSNode)) :
    bfs_run cap (q1 ++ (p, FSNode.dir false cs) :: q2)
      = ((bfs_run cap (q1 ++ q2)).1.take q1.length
          ++ TopNHeap.new cap :: (bfs_run cap (q1 ++ q2)).1.drop q1.length,
         ScanStats.add (bfs_run cap (q1 ++ q2)).2 ⟨0, 0, 1⟩) := by
  have hw : (FSNode.dir false cs).weight
      = 1 + FSNode.weight.weightChildren cs := rfl
  have hso : scan_one cap (p, FSNode.dir false cs)
      = (TopNHeap.new cap, ⟨0, 0, 1⟩, []) := rfl
  have hfb : queueWeight (q1 ++ (p, FSNode.dir false cs) :: q2)
      = (queueWeight (q1 ++ q2) + FSNode.weight.weightChildren cs) + 1 := by
    rw [queueWeight_append, queueWeight_cons, queueWeight_append]
    simp only [hw]
    omega
  unfold bfs_run
  rw [hfb]
  by_cases hqs : q1 ++ q2 = []
  · have hq1 : q1 = [] := by
      rcases List.append_eq_nil.mp hqs with ⟨h1, _⟩
      exact h1
    have hq2 : q2 = [] := by
      rcases List.append_eq_nil.mp hqs with ⟨_, h2⟩
      exact h2
    subst hq1
    subst hq2
    rw [bfs_rounds_succ cap _ _ (by simp)]
    simp only [List.nil_append, List.map_cons, List.map_nil, hso,
      List.flatten_cons, List.flatten_nil, bfs_rounds_nil, sumStats_cons,
      sumStats_nil]
    refine Prod.ext ?_ ?_
    · simp [queueWeight_nil, bfs_rounds_nil]
    · simp [queueWeight_nil, bfs_rounds_nil, ScanStats.add]
  · cases hF : queueWeight (q1 ++ q2) with
    | zero =>
      exact absurd hF (by have := queueWeight_pos _ hqs; omega)
    | succ Fs =>
      have hQb : q1 ++ (p, FSNode.dir false cs) :: q2 ≠ [] := by simp
      rw [bfs_rounds_succ cap _ _ hQb, bfs_rounds_succ cap _ _ hqs]
      have hnextw := next_level_weight cap (q1 ++ q2)
      have hlen : 1 ≤ (q1 ++ q2).length := by
        cases hql : q1 ++ q2 with
        | nil => exact absurd hql hqs
        | cons a l => simp
      have hle1 : queueWeight ((((q1 ++ q2).map (scan_one cap)).map
          (fun r => r.2.2)).flatten) ≤ Fs := by omega
      have hle2 : queueWeight ((((q1 ++ q2).map (scan_one cap)).map
          (fun r => r.2.2)).flatten)
          ≤ Fs + 1 + FSNode.weight.weightChildren cs := by
        omega
      have hnexteq :
          (((q1 ++ (p, FSNode.dir false cs) :: q2).map (scan_one cap)).map
            (fun r => r.2.2)).flatten
          = (((q1 ++ q2).map (scan_one cap)).map (fun r => r.2.2)).flatten := by
        simp only [List.map_append, List.map_cons, hso, List.flatten_append,
          List.flatten_cons, List.nil_append]
      rw [hnexteq]
      have hcongr :
          bfs_rounds cap (Fs + 1 + FSNode.weight.weightChildren cs)
            ((((q1 ++ q2).map (scan_one cap)).map (fun r => r.2.2)).flatten)
          = bfs_rounds cap Fs
            ((((q1 ++ q2).map (scan_one cap)).map (fun r => r.2.2)).flatten) :=
        bfs_rounds_congr cap _ Fs _ hle2 hle1
      rw [hcongr]
      refine Prod.ext ?_ ?_
      · show ((q1 ++ (p, FSNode.dir false cs) :: q2).map (scan_one cap)).map
              (fun r => r.1) ++ _
          = _
        have hl : q1.length
            = (((q1.map (scan_one cap)).map (fun r => r.1))).length := by
          simp
        have htake : ∀ C : List TopNHeap,
            ((((q1.map (scan_one cap)).map (fun r => r.1))
              ++ ((q2.map (scan_one cap)).map (fun r => r.1))) ++ C).take q1.length
            = ((q1.map (scan_one cap)).map (fun r => r.1)) := by
          intro C
          rw [List.append_assoc, hl, List.take_left]
        have hdrop : ∀ C : List TopNHeap,
            ((((q1.map (scan_one cap)).map (fun r => r.1))
              ++ ((q2.map (scan_one cap)).map (fun r => r.1))) ++ C).drop q1.length
            = ((q2.map (scan_one cap)).map (fun r => r.1)) ++ C := by
          intro C
          rw [List.append_assoc, hl, List.drop_left]
        rw [List.map_append, List.map_cons, hso, List.map_append, List.map_cons]
        simp only [List.map_append]
        rw [htake, hdrop]
        simp
      · show ScanStats.add
            (sumStats (((q1 ++ (p, FSNode.dir false cs) :: q2).map
              (scan_one cap)).map (fun r => r.2.1))) _
          = _
        rw [List.map_append, List.map_cons, hso, List.map_append,
          List.map_cons]
        simp only [List.map_append, sumStats_append, sumStats_cons]
        simp only [ScanStats.add, ScanStats.mk.injEq]
        omega

end Bfinder

namespace Bfinder

theorem merge_heaps_eq (hs : List TopNHeap) (cap : Nat) :
    merge_heaps hs cap
      = List.insertionSort outLe
          ((heapFold cap ((hs.map TopNHeap.into_vec).flatten)).heap) := by
  unfold merge_heaps
  rw [foldl_insert_flatten]
  rfl

theorem scan_run_stats (p : String) (n : FSNode) (cap : Nat) :
    (scan_run p n cap).2 = statsOfAgg (nodeAgg p n) := by
  unfold scan_run bfs_run
  rw [bfs_rounds_stats cap _ _ (le_refl _)]
  simp only [List.map_cons, List.map_nil, sumStats_cons, sumStats_nil,
    statsAdd_zero]
  rfl

theorem parallel_scan_stats (p : String) (n : FSNode) (cap : Nat) :
    (parallel_scan p n cap).2 = statsOfAgg (nodeAgg p n) :=
  scan_run_stats p n cap

theorem scan_run_count (p : String) (n : FSNode) (cap : Nat) :
    (scan_run p n cap).1.length = 1 + (scan_run p n cap).2.dirs_scanned := by
  unfold scan_run bfs_run
  rw [bfs_rounds_count cap _ _ (le_refl _)]
  simp

theorem heapFold_zero (l : List FileEntry) : (heapFold 0 l).heap = [] := by
  rw [heapFold_eq]
  show (List.insertionSort FileEntry.le l).drop (l.length - 0) = []
  rw [Nat.sub_zero, ← List.length_insertionSort FileEntry.le l,
    List.drop_length]

theorem parallel_scan_entries_sub (p : String) (n : FSNode) (cap : Nat)
    (e : FileEntry) (he : e ∈ (parallel_scan p n cap).1) :
    e ∈ (nodeAgg p n).entries := by
  have h1 : e ∈ merge_heaps (scan_run p n cap).1 cap := he
  rw [merge_heaps_eq] at h1
  have h2 : e ∈ (heapFold cap
      (((scan_run p n cap).1.map TopNHeap.into_vec).flatten)).heap :=
    (List.perm_insertionSort outLe _).subset h1
  have h3 := heapFold_subset cap _ e h2
  have h4 : e ∈ (((bfs_rounds cap (queueWeight [(p, n)]) [(p, n)]).1.map
      TopNHeap.into_vec).flatten) := h3
  have h5 := bfs_rounds_entries cap _ _ (le_refl _) e h4
  simpa using h5

end Bfinder

namespace Bfinder

/-- Claim C1 (code bug): on the spec's own scenario — `/a/1.txt` (500
bytes), `/a/2.txt` (500 bytes), `/b/3.txt` (1000 bytes), capacity 2 —
the program outputs `[{1000, /b/3.txt}, {500, /a/2.txt}]`, not the
specified `[{1000, /b/3.txt}, {500, /a/1.txt}]`: `FileEntry::cmp`
orders paths ascending, so under `Reverse` the min-heap evicts the
entry with the smallest path on a size tie, keeping the larger path,
contrary to the spec's (and the comment's) "path ascending" tie-break. -/
theorem claim_scenario_tie_break :
    parallel_scan ""
        (FSNode.dir true
          [("a", true, FSNode.dir true
            [("1.txt", true, FSNode.file 500),
             ("2.txt", true, FSNode.file 500)]),
           ("b", true, FSNode.dir true
            [("3.txt", true, FSNode.file 1000)])]) 2
      = ([⟨1000, "/b/3.txt"⟩, ⟨500, "/a/2.txt"⟩], ⟨3, 2, 0⟩)
    ∧ (parallel_scan ""
        (FSNode.dir true
          [("a", true, FSNode.dir true
            [("1.txt", true, FSNode.file 500),
             ("2.txt", true, FSNode.file 500)]),
           ("b", true, FSNode.dir true
            [("3.txt", true, FSNode.file 1000)])]) 2).1
      ≠ [⟨1000, "/b/3.txt"⟩, ⟨500, "/a/1.txt"⟩] := by
  decide

/-- Claim C2: `merge_heaps` depends only on the multiset of entries
held across the input heaps and on the capacity — any partitioning of
the same entries into heaps, in any per-heap drain order, merges to the
identical sorted sequence. -/
theorem claim_merge_deterministic (hs1 hs2 : List TopNHeap) (capacity : Nat)
    (h : ((hs1.map TopNHeap.into_vec).flatten).Perm
          ((hs2.map TopNHeap.into_vec).flatten)) :
    merge_heaps hs1 capacity = merge_heaps hs2 capacity := by
  rw [merge_heaps_eq, merge_heaps_eq, heapFold_perm capacity h]

/-- Witness for C2 at a concrete input: two heaps holding `{500,"a"}`
and `{1000,"b"}` separately merge exactly as one heap holding both in
the opposite order. -/
theorem claim_merge_deterministic_witness :
    ((([⟨[⟨500, "a"⟩], 2⟩, ⟨[⟨1000, "b"⟩], 2⟩] : List TopNHeap).map
        TopNHeap.into_vec).flatten).Perm
      ((([⟨[⟨1000, "b"⟩, ⟨500, "a"⟩], 2⟩] : List TopNHeap).map
        TopNHeap.into_vec).flatten)
    ∧ merge_heaps [⟨[⟨500, "a"⟩], 2⟩, ⟨[⟨1000, "b"⟩], 2⟩] 2
      = merge_heaps [⟨[⟨1000, "b"⟩, ⟨500, "a"⟩], 2⟩] 2 := by
  have hperm : ((([⟨[⟨500, "a"⟩], 2⟩, ⟨[⟨1000, "b"⟩], 2⟩] : List TopNHeap).map
        TopNHeap.into_vec).flatten).Perm
      ((([⟨[⟨1000, "b"⟩, ⟨500, "a"⟩], 2⟩] : List TopNHeap).map
        TopNHeap.into_vec).flatten) := by
    show ([⟨500, "a"⟩, ⟨1000, "b"⟩] : List FileEntry).Perm
      [⟨1000, "b"⟩, ⟨500, "a"⟩]
    exact List.Perm.swap _ _ []
  exact ⟨hperm, claim_merge_deterministic _ _ 2 hperm⟩

/-- Claim C3 (code bug): with capacity 1, after inserting `{500,
"/a/1.txt"}` and `{500, "/a/2.txt"}` the selector holds `{500,
"/a/2.txt"}` and has discarded `{500, "/a/1.txt"}`, which ranks
strictly higher under the spec's order (size descending, path
ascending) — the selector evicts the higher-ranked entry on a size
tie. -/
theorem claim_selector_eviction_order :
    (heapFold 1 [⟨500, "/a/1.txt"⟩, ⟨500, "/a/2.txt"⟩]).heap
        = [⟨500, "/a/2.txt"⟩]
    ∧ specRankHigher ⟨500, "/a/1.txt"⟩ ⟨500, "/a/2.txt"⟩
    ∧ (⟨500, "/a/1.txt"⟩ : FileEntry)
        ∉ (heapFold 1 [⟨500, "/a/1.txt"⟩, ⟨500, "/a/2.txt"⟩]).heap := by
  decide

/-- Counterexample to claim C4: a root that cannot be opened is not
fatal — the run completes with exit status 0, an empty ranked output
and one counted error. -/
theorem claim_root_failure_exit_counterexample :
    parallel_scan "/r" (FSNode.dir false [("x", true, FSNode.file 999)]) 10
        = ([], ⟨0, 0, 1⟩)
    ∧ main_exit_code "/r" (FSNode.dir false [("x", true, FSNode.file 999)]) 10
        = 0 := by
  decide

/-- Amended claim C4: the process exit status is 0 in every run; an
unopenable root is reported only through `stats.errors` (exactly one
error), with an empty ranked output. -/
theorem claim_root_failure_nonfatal :
    (∀ (p : String) (n : FSNode) (cap : Nat), main_exit_code p n cap = 0)
    ∧ (∀ (p : String) (cs : List (String × Bool × FSNode)) (cap : Nat),
        parallel_scan p (FSNode.dir false cs) cap = ([], ⟨0, 0, 1⟩)) := by
  constructor
  · intro p n cap
    rfl
  · intro p cs cap
    have hstats : (parallel_scan p (FSNode.dir false cs) cap).2
        = ⟨0, 0, 1⟩ := by
      rw [parallel_scan_stats]
      rfl
    have hout : (parallel_scan p (FSNode.dir false cs) cap).1 = [] := by
      rw [List.eq_nil_iff_forall_not_mem]
      intro e he
      have hmem := parallel_scan_entries_sub p (FSNode.dir false cs) cap e he
      simp [nodeAgg] at hmem
    exact Prod.ext hout hstats

/-- Counterexample to claim C5: on a tree whose root has three
subdirectories, scanned in two rounds, the merge receives four
selectors — one per directory scanned — even under the single-worker
schedule, where the claim predicts at most one selector per worker per
round (two in total). -/
theorem claim_selector_per_worker_counterexample :
    (scan_run ""
        (FSNode.dir true
          [("a", true, FSNode.dir true []),
           ("b", true, FSNode.dir true []),
           ("c", true, FSNode.dir true [])]) 5).1.length = 4
    ∧ ¬ (scan_run ""
        (FSNode.dir true
          [("a", true, FSNode.dir true []),
           ("b", true, FSNode.dir true []),
           ("c", true, FSNode.dir true [])]) 5).1.length ≤ 2 := by
  decide

/-- Amended claim C5: every `map_init` closure invocation returns its
selector+stats pair and resets the accumulator (`std::mem::replace`),
so the merge receives exactly one selector per directory scanned — `1 +
dirs_scanned` in total — independent of worker count. -/
theorem claim_selector_per_directory (p : String) (n : FSNode) (cap : Nat) :
    (scan_run p n cap).1.length = 1 + (scan_run p n cap).2.dirs_scanned :=
  scan_run_count p n cap

/-- Claim C6: classification sees only the entry's own link-unaware
metadata — a symbolic link is classified `Other` whatever its target —
and every entry of the ranked output is a regular file discovered in
the tree, so a symlink (even to a large file) never appears there. -/
theorem claim_symlink_exclusion :
    (∀ t : FSNode, classify_entry (FSNode.symlink t)
        = Except.ok EntryMetadata.Other)
    ∧ (∀ (p : String) (n : FSNode) (cap : Nat) (e : FileEntry),
        e ∈ (parallel_scan p n cap).1 → e ∈ (nodeAgg p n).entries) :=
  ⟨fun _ => rfl, fun p n cap e he => parallel_scan_entries_sub p n cap e he⟩

/-- Witness for C6 at a concrete input: a tree holding a regular file
and a symlink to a much larger file outputs exactly the regular file,
which indeed is among the tree's discovered regular files. -/
theorem claim_symlink_exclusion_witness :
    ((⟨42, "/f"⟩ : FileEntry)
        ∈ (parallel_scan ""
            (FSNode.dir true
              [("f", true, FSNode.file 42),
               ("link", true, FSNode.symlink (FSNode.file 999999))]) 1).1)
    ∧ (⟨42, "/f"⟩ : FileEntry)
        ∈ (nodeAgg ""
            (FSNode.dir true
              [("f", true, FSNode.file 42),
               ("link", true, FSNode.symlink (FSNode.file 999999))])).entries :=
  ⟨by decide,
   claim_symlink_exclusion.2 ""
     (FSNode.dir true
       [("f", true, FSNode.file 42),
        ("link", true, FSNode.symlink (FSNode.file 999999))]) 1
     ⟨42, "/f"⟩ (by decide)⟩

/-- Claim C7: with capacity 0 every insert leaves the selector empty
(the inserted entry is immediately evicted, without error), a full scan
returns an empty ranked sequence, and `files_scanned` still counts
every regular file encountered. -/
theorem claim_capacity_zero (p : String) (n : FSNode) :
    (∀ e : FileEntry, ((TopNHeap.new 0).insert e).heap = [])
    ∧ (∀ l : List FileEntry, (heapFold 0 l).heap = [])
    ∧ (parallel_scan p n 0).1 = []
    ∧ (parallel_scan p n 0).2.files_scanned = (nodeAgg p n).files := by
  refine ⟨fun e => rfl, heapFold_zero, ?_, ?_⟩
  · show merge_heaps (scan_run p n 0).1 0 = []
    rw [merge_heaps_eq, heapFold_zero]
    rfl
  · rw [parallel_scan_stats]
    rfl

/-- Counterexample to claim C8: on a tree with two regular files and
capacity 1, `files_scanned` is 2 (every file), one entry is discarded,
and `files_scanned` plus the discard count is 3, not the total 2 — the
claimed equation does not hold because `files_scanned` already counts
discarded entries. -/
theorem claim_files_plus_discarded_counterexample :
    (parallel_scan ""
        (FSNode.dir true
          [("a.txt", true, FSNode.file 100),
           ("b.txt", true, FSNode.file 200)]) 1).2.files_scanned
      + ((nodeAgg ""
          (FSNode.dir true
            [("a.txt", true, FSNode.file 100),
             ("b.txt", true, FSNode.file 200)])).files
        - (parallel_scan ""
            (FSNode.dir true
              [("a.txt", true, FSNode.file 100),
               ("b.txt", true, FSNode.file 200)]) 1).1.length)
    ≠ (nodeAgg ""
        (FSNode.dir true
          [("a.txt", true, FSNode.file 100),
           ("b.txt", true, FSNode.file 200)])).files := by
  decide

/-- Amended claim C8: `stats.files_scanned` equals the total number of
regular files discovered in the tree — it is incremented exactly once
per successfully classified regular file, whether or not the selector
later discards the entry. -/
theorem claim_files_scanned_total (p : String) (n : FSNode) (cap : Nat) :
    (parallel_scan p n cap).2.files_scanned = (nodeAgg p n).files := by
  rw [parallel_scan_stats]
  rfl

/-- Claim C9: entry-level failures (failed metadata query,
unrepresentable name) each add exactly one error and the directory scan
continues with the remaining children exactly as if the failing ones
were absent; a directory-level open failure adds one error and one
empty selector and leaves the rest of the traversal unchanged. -/
theorem claim_error_isolation :
    (∀ (p : String) (cs : List (String × Bool × FSNode)) (cap : Nat)
        (s : ScanStats) (sub : List (String × FSNode)),
      scan_dir_ok p cs (TopNHeap.new cap) s sub
        = ((scan_dir_ok p (goodChildren cs) (TopNHeap.new cap) s sub).1,
           ⟨(scan_dir_ok p (goodChildren cs) (TopNHeap.new cap) s sub).2.1.files_scanned,
            (scan_dir_ok p (goodChildren cs) (TopNHeap.new cap) s sub).2.1.dirs_scanned,
            (scan_dir_ok p (goodChildren cs) (TopNHeap.new cap) s sub).2.1.errors
              + badChildCount cs⟩,
           (scan_dir_ok p (goodChildren cs) (TopNHeap.new cap) s sub).2.2))
    ∧ (∀ (cap : Nat) (q1 q2 : List (String × FSNode)) (p : String)
        (cs : List (String × Bool × FSNode)),
      bfs_run cap (q1 ++ (p, FSNode.dir false cs) :: q2)
        = ((bfs_run cap (q1 ++ q2)).1.take q1.length
            ++ TopNHeap.new cap :: (bfs_run cap (q1 ++ q2)).1.drop q1.length,
           ScanStats.add (bfs_run cap (q1 ++ q2)).2 ⟨0, 0, 1⟩)) :=
  ⟨fun p cs cap s sub => scan_dir_skips_bad p cs cap s sub,
   fun cap q1 q2 p cs => bfs_run_bad_dir cap q1 q2 p cs⟩

/-- Claim C10: `stats.dirs_scanned` counts exactly the subdirectories
discovered through classification of directory children; the root is
never included, so a tree with no subdirectories reports 0 even though
the root itself was listed. -/
theorem claim_dirs_scanned_subdirs :
    (∀ (p : String) (n : FSNode) (cap : Nat),
        (parallel_scan p n cap).2.dirs_scanned = (nodeAgg p n).dirs)
    ∧ (∀ cap : Nat,
        (parallel_scan ""
          (FSNode.dir true
            [("f.txt", true, FSNode.file 5),
             ("s", true, FSNode.symlink (FSNode.file 7))]) cap).2.dirs_scanned
          = 0) := by
  constructor
  · intro p n cap
    rw [parallel_scan_stats]
    rfl
  · intro cap
    rw [parallel_scan_stats]
    rfl

end Bfinder
